import Mathlib

set_option maxHeartbeats 1600000

namespace Toasty

/-- Tile position: integer depth `n` and coordinates `x`, `y`.  Python
namedtuple `Pos`, defined identically in `toast.py` and `pyramid.py`.
Python integers are unbounded, so every field is `Int`; Python floor
division `//` and modulo `%` are `Int.fdiv` and `Int.fmod`. -/
structure Pos where
  n : Int
  x : Int
  y : Int
deriving DecidableEq, Repr

/-- Tile: a position, four corner coordinates (upper-left, upper-right,
lower-right, lower-left) and the diagonal-orientation flag.  The corner
coordinate type is kept abstract (`C`): the numeric corner values are
floating-point spherical coordinates produced by the external
`_libtoasty.mid`, and none of the verified claims depend on them. -/
structure Tile (C : Type) where
  pos : Pos
  corners : C × C × C × C
  increasing : Bool
deriving DecidableEq, Repr

namespace toast

/-- Total number of tiles in a TOAST pyramid of depth `depth`
(`toast.depth2tiles`): `(4 ** (depth + 1) - 1) // 3`. -/
def depth2tiles (depth : Nat) : Nat :=
  (4 ^ (depth + 1) - 1) / 3

/-- Parent of a tile position (`toast._parent`): no precondition check,
returns `(Pos(n-1, x//2, y//2), x % 2, y % 2)`. -/
def _parent (pos : Pos) : Pos × Int × Int :=
  (⟨pos.n - 1, pos.x.fdiv 2, pos.y.fdiv 2⟩, pos.x.fmod 2, pos.y.fmod 2)

/-- Ascent-based descendant test (`toast.is_subtile`).  The Python
function raises `ValueError` when `deeper_pos.n < shallower_pos.n`;
the raise is modelled as `none`. -/
def is_subtile (deeper_pos shallower_pos : Pos) : Option Bool :=
  if deeper_pos.n < shallower_pos.n then none
  else if deeper_pos.n = shallower_pos.n then
    some (decide (deeper_pos.x = shallower_pos.x ∧ deeper_pos.y = shallower_pos.y))
  else is_subtile (_parent deeper_pos).1 shallower_pos
termination_by (deeper_pos.n - shallower_pos.n).toNat
decreasing_by
  simp only [_parent]
  omega

/-- Sub-region tile filter (`toast.nxy_tile_filter`): built over the
region position `Pos(layer, tx, ty)`; accepts deeper tiles outright and
otherwise asks `is_subtile(regionLoc, tileLoc)`.  A raise inside
`is_subtile` propagates, hence the `Option Bool` result. -/
def nxy_tile_filter {C : Type} (layer tx ty : Int) (tile : Tile C) : Option Bool :=
  if tile.pos.n > layer then some true
  else is_subtile (⟨layer, tx, ty⟩ : Pos) tile.pos

/-- Four child tiles of a tile (`toast._div4`): position coordinates are
doubled, corner midpoints are taken with the (abstract) spherical
midpoint function `mid`, the `increasing` flag is inherited, and the
children are listed top-left, top-right, bottom-left, bottom-right. -/
def _div4 {C : Type} (mid : C → C → C) (tile : Tile C) : List (Tile C) :=
  let n := tile.pos.n
  let x := tile.pos.x
  let y := tile.pos.y
  let ul := tile.corners.1
  let ur := tile.corners.2.1
  let lr := tile.corners.2.2.1
  let ll := tile.corners.2.2.2
  let increasing := tile.increasing
  let to_ := mid ul ur
  let ri := mid ur lr
  let bo := mid lr ll
  let le := mid ll ul
  let ce := if increasing then mid ll ur else mid ul lr
  [⟨⟨n + 1, 2 * x, 2 * y⟩, (ul, to_, ce, le), increasing⟩,
   ⟨⟨n + 1, 2 * x + 1, 2 * y⟩, (to_, ur, ri, ce), increasing⟩,
   ⟨⟨n + 1, 2 * x, 2 * y + 1⟩, (le, ce, bo, ll), increasing⟩,
   ⟨⟨n + 1, 2 * x + 1, 2 * y + 1⟩, (ce, ri, lr, bo), increasing⟩]

/-- Fuelled body of `toast._postfix_corner`.  The Python generator
returns at once when `tile.pos.n > depth`; here the fuel is exactly
`(depth + 1 - tile.pos.n).toNat`, so fuel `0` is that early return and
at fuel `k + 1` the yield condition `n == depth` is `k = 0`.  Children
(one level deeper) recurse with fuel `k`. -/
def pcAux {C : Type} (mid : C → C → C) (bottom_only : Bool) (tile_filter : Tile C → Bool) :
    Nat → Tile C → List (Tile C)
  | 0, _ => []
  | Nat.succ k, tile =>
    if ¬ tile_filter tile then []
    else
      ((_div4 mid tile).flatMap (pcAux mid bottom_only tile_filter k)) ++
        (if k = 0 ∨ ¬ bottom_only then [tile] else [])

/-- Postfix traversal of the subtiles of one tile
(`toast._postfix_corner`), deepest first: recurse into the four
children before (possibly) yielding the tile itself. -/
def _postfix_corner {C : Type} (mid : C → C → C) (depth : Int) (bottom_only : Bool)
    (tile_filter : Tile C → Bool) (tile : Tile C) : List (Tile C) :=
  pcAux mid bottom_only tile_filter (depth + 1 - tile.pos.n).toNat tile

/-- Pyramid traversal (`toast.iter_corners`): the four fixed base tiles
(positions `(1,0,0)`, `(1,1,0)`, `(1,1,1)`, `(1,0,1)` with `increasing`
flags `true, false, true, false` and the `level1` corner table, here the
abstract corner quadruples `l1 .. l4`), each expanded in postfix order. -/
def iter_corners {C : Type} (mid : C → C → C) (l1 l2 l3 l4 : C × C × C × C)
    (depth : Int) (bottom_only : Bool) (tile_filter : Tile C → Bool) : List (Tile C) :=
  [(⟨⟨1, 0, 0⟩, l1, true⟩ : Tile C), ⟨⟨1, 1, 0⟩, l2, false⟩,
   ⟨⟨1, 1, 1⟩, l3, true⟩, ⟨⟨1, 0, 1⟩, l4, false⟩].flatMap
    (_postfix_corner mid depth bottom_only tile_filter)

end toast

namespace pyramid

/-- Total number of tiles in a WWT tile pyramid of depth `depth`
(`pyramid.depth2tiles`). -/
def depth2tiles (depth : Nat) : Nat :=
  (4 ^ (depth + 1) - 1) / 3

/-- Parent of a tile position (`pyramid.pos_parent`): raises
(`none`) when `pos.n < 1`, otherwise returns the parent together with
the child quadrant indices. -/
def pos_parent (pos : Pos) : Option (Pos × Int × Int) :=
  if pos.n < 1 then none
  else some (⟨pos.n - 1, pos.x.fdiv 2, pos.y.fdiv 2⟩, pos.x.fmod 2, pos.y.fmod 2)

/-- Children of a tile position (`pyramid.pos_children`), always in the
order top left, top right, bottom left, bottom right. -/
def pos_children (pos : Pos) : List Pos :=
  [⟨pos.n + 1, 2 * pos.x, 2 * pos.y⟩,
   ⟨pos.n + 1, 2 * pos.x + 1, 2 * pos.y⟩,
   ⟨pos.n + 1, 2 * pos.x, 2 * pos.y + 1⟩,
   ⟨pos.n + 1, 2 * pos.x + 1, 2 * pos.y + 1⟩]

end pyramid

/-- Tile image: a two-dimensional pixel array.  Pixel values are
modelled as rationals (the Python arrays carry numpy numbers; none of
the verified claims depends on dtype rounding, so `astype` is the
identity on this model). -/
abbrev Img := List (List ℚ)

/-- Quadrant key inside a merge-accumulator entry: the pair
`(x_index, y_index)` produced by the parent operation. -/
abbrev Quad := Int × Int

/-- Accumulator entry for one parent: the Python per-parent `dict`
mapping quadrant keys to (possibly absent) child images, as an
association list in insertion order. -/
abbrev CornerDict := List (Quad × Option Img)

/-- The merge accumulator (`parents = defaultdict(dict)` in
`iter_tiles`): an association list from parent positions to their
entries, in creation order. -/
abbrev ParentsMap := List (Pos × CornerDict)

/-- Lookup in an association list (Python `d[k]` / `k in d`). -/
def alGet {α β : Type} [DecidableEq α] : List (α × β) → α → Option β
  | [], _ => none
  | e :: t, k => if e.1 = k then some e.2 else alGet t k

/-- Update-or-append in an association list (Python `d[k] = v`):
the first binding of the key is replaced in place, a missing key is
appended at the end, matching insertion-ordered Python dicts. -/
def alSet {α β : Type} [DecidableEq α] : List (α × β) → α → β → List (α × β)
  | [], k, v => [(k, v)]
  | e :: t, k, v => if e.1 = k then (k, v) :: t else e :: alSet t k v

/-- Removal from an association list (Python `d.pop(k)`). -/
def alErase {α β : Type} [DecidableEq α] : List (α × β) → α → List (α × β)
  | [], _ => []
  | e :: t, k => if e.1 = k then alErase t k else e :: alErase t k

namespace toast

/-- Total number of child images buffered across all live accumulator
entries: `sum(len(v) for v in parents.values())`. -/
def nparent (parents : ParentsMap) : Nat :=
  (parents.map fun e => e.2.length).sum

/-- Deterministic relative tile path,
`os.path.join('%i' % n, '%i' % y, '%i_%i.png' % (y, x))`. -/
def mkPath (n x y : Int) : String :=
  toString n ++ "/" ++ toString y ++ "/" ++ toString y ++ "_" ++ toString x ++ ".png"

/-- Shape of an image (`arr.shape`): for the 2-D arrays of this model
always the two-element list `[rows, cols]`. -/
def np_shape (im : Img) : List Nat :=
  [im.length, (im.headD []).length]

/-- All-zero array of a given shape (`np.zeros(shape, dtype=np.uint8)`). -/
def np_zeros (shape : List Nat) : Img :=
  List.replicate (shape.headD 0) (List.replicate ((shape.drop 1).headD 0) 0)

/-- Vertical stacking of two images (`np.vstack`). -/
def np_vstack (a b : Img) : Img :=
  a ++ b

/-- Horizontal stacking of two images (`np.hstack`); the rows are
paired positionally (numpy requires equal row counts). -/
def np_hstack (a b : Img) : Img :=
  List.zipWith (fun r s => r ++ s) a b

/-- Every other element of a list starting at index 0
(numpy slice `[::2]`). -/
def evens {α : Type} : List α → List α
  | [] => []
  | [a] => [a]
  | a :: _ :: rest => a :: evens rest

/-- Every other element of a list starting at index 1
(numpy slice `[1::2]`). -/
def odds {α : Type} (l : List α) : List α :=
  evens (l.drop 1)

/-- Elementwise sum of two 2-D arrays. -/
def imgAdd (a b : Img) : Img :=
  List.zipWith (fun r s => List.zipWith (fun u v => u + v) r s) a b

/-- Division of every pixel by 4 (`mosaic[...] / 4.`). -/
def imgDiv4 (a : Img) : Img :=
  a.map fun r => r.map fun v => v / 4

/-- Default merge strategy (`toast._default_merge`): average each 2×2
pixel block, `(m[::2,::2]/4 + m[1::2,::2]/4 + m[::2,1::2]/4 +
m[1::2,1::2]/4).astype(m.dtype)` (with `astype` the identity here). -/
def _default_merge (mosaic : Img) : Img :=
  imgAdd (imgAdd (imgDiv4 ((evens mosaic).map evens))
                 (imgDiv4 ((odds mosaic).map evens)))
         (imgAdd (imgDiv4 ((evens mosaic).map odds))
                 (imgDiv4 ((odds mosaic).map odds)))

/-- First image of a list of optional images
(`[x for x in [ul,ur,bl,br] if x is not None][0]`). -/
def firstSome (l : List (Option Img)) : Img :=
  (l.filterMap id).headD []

/-- Body of the trickle-up reducer (`toast._trickle_up`), with an
explicit fuel for the upward recursion.  Yields `(path, image)` pairs,
threads the accumulator and reports whether every executed
`assert nparent <= 4 * max(depth, 1)` held.  The dead Python branches
are kept: `if not imgShape` (the shape of a 2-D array is never the
empty tuple) and the final catch-all (a `KeyError` on a quadrant key:
unreachable, a four-element entry keyed by `x % 2, y % 2` pairs holds
all four quadrants).  The Python `try`/`except` around the merge
application has no counterpart because Lean merge functions are total.
The recursion removes a completed four-slot entry after adding one
image, so `nparent` drops by at least 3 per upward step; fuel
`nparent parents + 1` (used by the wrapper below) therefore never runs
out, and the fuel-0 branch is unreachable from the wrapper. -/
def trickleAux (merge : Option (Img → Img)) (depth top : Int) :
    Nat → Option Img → Pos → ParentsMap →
      List (String × Option Img) × ParentsMap × Bool
  | 0, _, _, parents => ([], parents, true)
  | Nat.succ fuel, im, node, parents =>
    let pth := mkPath node.n node.x node.y
    let ok0 := decide ((nparent parents : Int) ≤ 4 * max depth 1)
    let ys := if depth ≥ node.n then [(pth, im)] else []
    if node.n = top then (ys, parents, ok0)
    else if merge.isNone ∧ node.n > 1 then (ys, parents, ok0)
    else
      let pq := _parent node
      let corners := alSet ((alGet parents pq.1).getD []) (pq.2.1, pq.2.2) im
      let parents1 := alSet parents pq.1 corners
      if corners.length < 4 then (ys, parents1, ok0)
      else
        let parents2 := alErase parents1 pq.1
        match alGet corners ((0 : Int), (0 : Int)), alGet corners ((1 : Int), (0 : Int)),
              alGet corners ((0 : Int), (1 : Int)), alGet corners ((1 : Int), (1 : Int)) with
        | some ul, some ur, some bl, some br =>
          let im2 :=
            if ul = none ∧ ur = none ∧ bl = none ∧ br = none then none
            else
              let imgShape := np_shape (firstSome [ul, ur, bl, br])
              if imgShape = [] then none
              else
                let ul := ul.getD (np_zeros imgShape)
                let ur := ur.getD (np_zeros imgShape)
                let bl := bl.getD (np_zeros imgShape)
                let br := br.getD (np_zeros imgShape)
                let mosaic := np_vstack (np_hstack ul ur) (np_hstack bl br)
                some ((merge.getD _default_merge) mosaic)
          let r := trickleAux merge depth top fuel im2 pq.1 parents2
          (ys ++ r.1, r.2.1, ok0 && r.2.2)
        | _, _, _, _ => (ys, parents2, ok0)

/-- Trickle-up reducer (`toast._trickle_up`): the fuelled body started
with enough fuel for the whole upward cascade. -/
def _trickle_up (merge : Option (Img → Img)) (depth top : Int) (im : Option Img)
    (node : Pos) (parents : ParentsMap) :
    List (String × Option Img) × ParentsMap × Bool :=
  trickleAux merge depth top (nparent parents + 1) im node parents

/-- Merge-policy argument of `iter_tiles`: Python `True`, `False` or a
callable. -/
inductive MergePolicy : Type
  | tru : MergePolicy
  | fls : MergePolicy
  | fn : (Img → Img) → MergePolicy

/-- Normalisation `if merge is True: merge = _default_merge` performed
at the top of `iter_tiles`; afterwards `merge` is `False` (`none`) or a
callable (`some`). -/
def mergeOf : MergePolicy → Option (Img → Img)
  | MergePolicy.tru => some _default_merge
  | MergePolicy.fls => none
  | MergePolicy.fn f => some f

/-- Loop body of `iter_tiles` over the traversal output, threading the
accumulator state.  `resolve` abstracts the three image-resolution
branches of the source (directory read when the sampler is a string,
restart-file check, sampler invocation): each produces an optional
image from the current tile, the run itself being fixed.  Returns the
emitted `(path, image)` pairs, the final accumulator and the
conjunction of all assertion outcomes inside `_trickle_up`. -/
def runTiles {C : Type} (resolve : Tile C → Option Img) (merge : Option (Img → Img))
    (depth top : Int) (base_level_only : Bool) :
    List (Tile C) → ParentsMap → List (String × Option Img) × ParentsMap × Bool
  | [], parents => ([], parents, true)
  | tile :: rest, parents =>
    let img := resolve tile
    if img = none ∧ base_level_only then
      runTiles resolve merge depth top base_level_only rest parents
    else if ¬ base_level_only then
      let r := _trickle_up merge depth top img tile.pos parents
      let s := runTiles resolve merge depth top base_level_only rest r.2.1
      ((r.1.filter fun pr => pr.2.isSome) ++ s.1, s.2.1, r.2.2 && s.2.2)
    else
      let s := runTiles resolve merge depth top base_level_only rest parents
      ((mkPath tile.pos.n tile.pos.x tile.pos.y, img) :: s.1, s.2.1, s.2.2)

/-- Pipeline `toast.iter_tiles`: traverse with
`iter_corners(max(depth, 1), bottom_only=merge, tile_filter)` and feed
every resolved image through the loop body, starting from an empty
accumulator. -/
def iter_tiles {C : Type} (resolve : Tile C → Option Img) (depth : Int)
    (mp : MergePolicy) (base_level_only : Bool) (tile_filter : Tile C → Bool)
    (top : Int) (mid : C → C → C) (l1 l2 l3 l4 : C × C × C × C) :
    List (String × Option Img) × ParentsMap × Bool :=
  let merge := mergeOf mp
  runTiles resolve merge depth top base_level_only
    (iter_corners mid l1 l2 l3 l4 (max depth 1) merge.isSome tile_filter) []

end toast

/-- Z-order enumeration of the depth-`k` descendant cells of the
quadtree cell `(x, y)`, in the child order used by `_div4` and
`pos_children`; reference enumeration for the traversal proofs. -/
def zleaves : Nat → Int → Int → List (Int × Int)
  | 0, x, y => [(x, y)]
  | Nat.succ k, x, y =>
    zleaves k (2 * x) (2 * y) ++ zleaves k (2 * x + 1) (2 * y) ++
      zleaves k (2 * x) (2 * y + 1) ++ zleaves k (2 * x + 1) (2 * y + 1)

theorem fdiv_two (a : Int) : Int.fdiv a 2 = a / 2 :=
  Int.fdiv_eq_ediv a (by norm_num)

theorem fmod_two (a : Int) : Int.fmod a 2 = a % 2 :=
  Int.fmod_eq_emod a (by norm_num)

theorem fdiv_two_mul (x : Int) : Int.fdiv (2 * x) 2 = x := by
  rw [fdiv_two]; omega

theorem fdiv_two_mul_add (x : Int) : Int.fdiv (2 * x + 1) 2 = x := by
  rw [fdiv_two]; omega

theorem fmod_two_mul (x : Int) : Int.fmod (2 * x) 2 = 0 := by
  rw [fmod_two]; omega

theorem fmod_two_mul_add (x : Int) : Int.fmod (2 * x + 1) 2 = 1 := by
  rw [fmod_two]; omega

/-- C4: taking the four children of a position and applying the parent
operation to any child recovers the position together with the quadrant
codes `(0,0), (1,0), (0,1), (1,1)` in the fixed order top-left,
top-right, bottom-left, bottom-right — both for the pure position
algebra `pos_children`/`pos_parent` (on positions, whose depth is
nonnegative) and for the tile subdivision `_div4`/`_parent`. -/
theorem children_parent_roundtrip :
    (∀ p : Pos, 0 ≤ p.n →
      (pyramid.pos_children p).map pyramid.pos_parent =
        [some (p, 0, 0), some (p, 1, 0), some (p, 0, 1), some (p, 1, 1)]) ∧
    (∀ (C : Type) (mid : C → C → C) (t : Tile C),
      (toast._div4 mid t).map (fun c => toast._parent c.pos) =
        [(t.pos, 0, 0), (t.pos, 1, 0), (t.pos, 0, 1), (t.pos, 1, 1)]) := by
  constructor
  · intro p hp
    have h1 : ¬ (p.n + 1 < 1) := by omega
    simp only [pyramid.pos_children, pyramid.pos_parent, List.map_cons, List.map_nil,
      h1, if_neg, not_false_iff, fdiv_two_mul, fdiv_two_mul_add, fmod_two_mul,
      fmod_two_mul_add]
    norm_num [Pos.mk.injEq]
  · intro C mid t
    simp only [toast._div4, toast._parent, List.map_cons, List.map_nil,
      fdiv_two_mul, fdiv_two_mul_add, fmod_two_mul, fmod_two_mul_add]
    norm_num [Pos.mk.injEq]

/-- Witness for C4 at the concrete position `(0, 0, 0)` and a trivial
corner type. -/
theorem children_parent_roundtrip_witness :
    (0 : Int) ≤ (⟨0, 0, 0⟩ : Pos).n ∧
      (pyramid.pos_children ⟨0, 0, 0⟩).map pyramid.pos_parent =
        [some (⟨0, 0, 0⟩, 0, 0), some (⟨0, 0, 0⟩, 1, 0),
         some (⟨0, 0, 0⟩, 0, 1), some (⟨0, 0, 0⟩, 1, 1)] :=
  ⟨by decide, children_parent_roundtrip.1 ⟨0, 0, 0⟩ (by decide)⟩

/-- C6 counterexample: `toast._parent` applied to the depth-0 position
`(0, 0, 0)` does not raise; it returns the depth −1 result of the
unchecked arithmetic. -/
theorem parent_depth0_returns :
    toast._parent ⟨0, 0, 0⟩ = (⟨-1, 0, 0⟩, 0, 0) := by
  decide

/-- C6 as amended: `pyramid.pos_parent` fails (raises, modelled `none`)
on every depth-0 position, while `toast._parent` performs the quotient
arithmetic unconditionally and returns a depth −1 parent. -/
theorem parent_of_depth0 :
    (∀ pos : Pos, pos.n = 0 → pyramid.pos_parent pos = none) ∧
    (∀ pos : Pos, pos.n = 0 →
      toast._parent pos = (⟨-1, pos.x.fdiv 2, pos.y.fdiv 2⟩, pos.x.fmod 2, pos.y.fmod 2)) := by
  constructor
  · intro pos h
    simp [pyramid.pos_parent, h]
  · intro pos h
    simp [toast._parent, h]

/-- Witness for C6 (amended) at the concrete position `(0, 3, 5)`. -/
theorem parent_of_depth0_witness :
    (⟨0, 3, 5⟩ : Pos).n = 0 ∧ pyramid.pos_parent ⟨0, 3, 5⟩ = none :=
  ⟨by decide, parent_of_depth0.1 ⟨0, 3, 5⟩ (by decide)⟩

theorem two_pow_pos (k : Nat) : (0 : Int) < 2 ^ k := by positivity

theorem ediv_small (a P : Int) (hP : 0 < P) (h0 : 0 ≤ a) (h2 : a < 2 * P) :
    a / P = 0 ∨ a / P = 1 := by
  have hnn : 0 ≤ a / P := Int.ediv_nonneg h0 (le_of_lt hP)
  have hlt : a / P < 2 := by
    rw [Int.ediv_lt_iff_lt_mul hP]
    omega
  omega

theorem ediv_pow_succ (a : Int) (k : Nat) : a / 2 ^ k / 2 = a / 2 ^ (k + 1) := by
  have hP : (0 : Int) < 2 ^ k := two_pow_pos k
  have hP1 : (0 : Int) < 2 ^ (k + 1) := two_pow_pos (k + 1)
  have h1 : 2 ^ (k + 1) * (a / 2 ^ (k + 1)) + a % 2 ^ (k + 1) = a := Int.ediv_add_emod a _
  have hr0 : 0 ≤ a % 2 ^ (k + 1) := Int.emod_nonneg a (by positivity)
  have hr1 : a % 2 ^ (k + 1) < 2 ^ (k + 1) := Int.emod_lt_of_pos a hP1
  have hrw : a = a % 2 ^ (k + 1) + 2 * (a / 2 ^ (k + 1)) * 2 ^ k := by
    have hps : (2 : Int) ^ (k + 1) = 2 ^ k * 2 := pow_succ 2 k
    calc a = 2 ^ (k + 1) * (a / 2 ^ (k + 1)) + a % 2 ^ (k + 1) := h1.symm
      _ = a % 2 ^ (k + 1) + 2 * (a / 2 ^ (k + 1)) * 2 ^ k := by rw [hps]; ring
  calc a / 2 ^ k / 2
      = (a % 2 ^ (k + 1) + 2 * (a / 2 ^ (k + 1)) * 2 ^ k) / 2 ^ k / 2 := by rw [← hrw]
    _ = (a % 2 ^ (k + 1) / 2 ^ k + 2 * (a / 2 ^ (k + 1))) / 2 := by
        rw [Int.add_mul_ediv_right _ _ (ne_of_gt hP)]
    _ = a / 2 ^ (k + 1) := by
        rcases ediv_small (a % 2 ^ (k + 1)) (2 ^ k) hP hr0 (by rw [pow_succ] at hr1; omega)
          with h | h <;> rw [h] <;> omega

theorem zmem : ∀ (k : Nat) (x y a b : Int),
    ((a, b) ∈ zleaves k x y) ↔ (a / 2 ^ k = x ∧ b / 2 ^ k = y) := by
  intro k
  induction k with
  | zero =>
    intro x y a b
    simp only [zleaves, List.mem_singleton, Prod.mk.injEq, pow_zero, Int.ediv_one]
  | succ k ih =>
    intro x y a b
    simp only [zleaves, List.mem_append, ih]
    constructor
    · intro h
      rw [← ediv_pow_succ a k, ← ediv_pow_succ b k]
      rcases h with ((h | h) | h) | h <;> constructor <;> omega
    · intro h
      have h1 := h.1
      have h2 := h.2
      rw [← ediv_pow_succ a k] at h1
      rw [← ediv_pow_succ b k] at h2
      omega

theorem zleaves_length : ∀ (k : Nat) (x y : Int), (zleaves k x y).length = 4 ^ k := by
  intro k
  induction k with
  | zero => intro x y; simp [zleaves]
  | succ k ih =>
    intro x y
    simp only [zleaves, List.length_append, ih, pow_succ]
    ring

theorem zleaves_nodup : ∀ (k : Nat) (x y : Int), (zleaves k x y).Nodup := by
  intro k
  induction k with
  | zero => intro x y; simp [zleaves]
  | succ k ih =>
    intro x y
    have hd : ∀ (x1 y1 x2 y2 : Int), ¬ (x1 = x2 ∧ y1 = y2) →
        (zleaves k x1 y1).Disjoint (zleaves k x2 y2) := by
      intro x1 y1 x2 y2 hne
      rintro ⟨a, b⟩ h1 h2
      rw [zmem] at h1 h2
      exact hne ⟨by omega, by omega⟩
    simp only [zleaves]
    refine ((((ih _ _).append (ih _ _) (hd _ _ _ _ (by omega))).append
      (ih _ _) ?_).append (ih _ _) ?_)
    · intro p h1 h2
      rcases p with ⟨a, b⟩
      rw [List.mem_append] at h1
      rw [zmem] at h2
      rcases h1 with h1 | h1 <;> rw [zmem] at h1 <;> omega
    · intro p h1 h2
      rcases p with ⟨a, b⟩
      rw [List.mem_append, List.mem_append] at h1
      rw [zmem] at h2
      rcases h1 with (h1 | h1) | h1 <;> rw [zmem] at h1 <;> omega

theorem pcAux_succ {C : Type} (mid : C → C → C) (bo : Bool) (f : Tile C → Bool)
    (k : Nat) (t : Tile C) :
    toast.pcAux mid bo f (k + 1) t =
      if ¬ f t then []
      else ((toast._div4 mid t).flatMap (toast.pcAux mid bo f k)) ++
        (if k = 0 ∨ ¬ bo then [t] else []) := rfl

theorem div4_pos {C : Type} (mid : C → C → C) (t : Tile C) :
    (toast._div4 mid t).map Tile.pos =
      [⟨t.pos.n + 1, 2 * t.pos.x, 2 * t.pos.y⟩, ⟨t.pos.n + 1, 2 * t.pos.x + 1, 2 * t.pos.y⟩,
       ⟨t.pos.n + 1, 2 * t.pos.x, 2 * t.pos.y + 1⟩,
       ⟨t.pos.n + 1, 2 * t.pos.x + 1, 2 * t.pos.y + 1⟩] := by
  simp [toast._div4]

theorem mapz (n0 : Int) (k : Nat) (x y : Int) :
    (zleaves k x y).map (fun d => (⟨n0 + 1 + (k : Int), d.1, d.2⟩ : Pos)) =
      (zleaves k x y).map (fun d => (⟨n0 + ((k + 1 : Nat) : Int), d.1, d.2⟩ : Pos)) := by
  refine List.map_congr_left ?_
  intro d _
  have hn : n0 + 1 + (k : Int) = n0 + ((k + 1 : Nat) : Int) := by push_cast; ring
  rw [hn]

theorem pcz {C : Type} (mid : C → C → C) (f : Tile C → Bool) :
    ∀ (k : Nat) (t : Tile C),
      (∀ u : Tile C, t.pos.n < u.pos.n → f u = true) → f t = true →
      (toast.pcAux mid true f (k + 1) t).map Tile.pos =
        (zleaves k t.pos.x t.pos.y).map (fun d => (⟨t.pos.n + k, d.1, d.2⟩ : Pos)) := by
  intro k
  induction k with
  | zero =>
    intro t hf hft
    rw [pcAux_succ]
    simp [hft, toast.pcAux, zleaves, List.flatMap]
  | succ k ih =>
    intro t hf hft
    rw [pcAux_succ]
    simp only [hft, not_true_eq_false, if_false, Bool.true_eq_false, ite_false]
    have hchild : ∀ u ∈ toast._div4 mid t, u.pos.n = t.pos.n + 1 := by
      intro u hu
      simp only [toast._div4, List.mem_cons, List.not_mem_nil, or_false] at hu
      rcases hu with h | h | h | h <;> subst h <;> rfl
    have hrec : ∀ u ∈ toast._div4 mid t,
        (toast.pcAux mid true f (k + 1) u).map Tile.pos =
          (zleaves k u.pos.x u.pos.y).map (fun d => (⟨u.pos.n + k, d.1, d.2⟩ : Pos)) := by
      intro u hu
      refine ih u ?_ ?_
      · intro v hv
        refine hf v ?_
        rw [hchild u hu] at hv
        omega
      · refine hf u ?_
        rw [hchild u hu]
        omega
    simp only [toast._div4] at hrec ⊢
    simp only [List.flatMap_cons, List.flatMap_nil, List.append_nil, List.map_append]
    rw [hrec _ (by simp), hrec _ (by simp), hrec _ (by simp), hrec _ (by simp)]
    dsimp only
    simp only [zleaves, List.map_append, List.append_assoc]
    rw [mapz t.pos.n k (2 * t.pos.x) (2 * t.pos.y),
        mapz t.pos.n k (2 * t.pos.x + 1) (2 * t.pos.y),
        mapz t.pos.n k (2 * t.pos.x) (2 * t.pos.y + 1),
        mapz t.pos.n k (2 * t.pos.x + 1) (2 * t.pos.y + 1)]
    simp

theorem ediv_ediv_pow (a : Int) (j : Nat) : a / 2 / 2 ^ j = a / 2 ^ (j + 1) := by
  induction j with
  | zero => simp
  | succ j ih =>
    rw [← ediv_pow_succ (a / 2) j, ih, ediv_pow_succ]

/-- Characterisation of the ascent-based descendant test: when the
first position is `j` levels deeper, `is_subtile` never raises and
compares the second position with the `j`-fold quotient of the first. -/
theorem is_subtile_char : ∀ (j : Nat) (p r : Pos), p.n = r.n + j →
    toast.is_subtile p r =
      some (decide (r.x = p.x / 2 ^ j ∧ r.y = p.y / 2 ^ j)) := by
  intro j
  induction j with
  | zero =>
    intro p r hp
    rw [toast.is_subtile, if_neg (by omega), if_pos (by omega)]
    simp only [pow_zero, Int.ediv_one]
    congr 1
    refine decide_eq_decide.mpr ?_
    constructor
    · rintro ⟨u, v⟩; exact ⟨u.symm, v.symm⟩
    · rintro ⟨u, v⟩; exact ⟨u.symm, v.symm⟩
  | succ j ih =>
    intro p r hp
    rw [toast.is_subtile, if_neg (by omega), if_neg (by omega)]
    have hp2 : (toast._parent p).1.n = r.n + j := by
      simp only [toast._parent]
      omega
    rw [ih _ r hp2]
    simp only [toast._parent, fdiv_two]
    congr 1
    refine decide_eq_decide.mpr ?_
    rw [ediv_ediv_pow, ediv_ediv_pow]

/-- A rejected tile produces no traversal output, whatever the fuel. -/
theorem pcAux_neg {C : Type} (mid : C → C → C) (bo : Bool) (f : Tile C → Bool)
    (fuel : Nat) (t : Tile C) (hf : f t = false) :
    toast.pcAux mid bo f fuel t = [] := by
  cases fuel with
  | zero => rfl
  | succ k =>
    rw [pcAux_succ, if_pos]
    simp [hf]

theorem nxyB_deep {C : Type} (r : Pos) (u : Tile C) (h : r.n < u.pos.n) :
    decide (toast.nxy_tile_filter r.n r.x r.y u = some true) = true := by
  refine decide_eq_true ?_
  unfold toast.nxy_tile_filter
  rw [if_pos (by omega)]

theorem nxyB_eval {C : Type} (r : Pos) (jj : Nat) (u : Tile C)
    (h : u.pos.n ≤ r.n) (hj : r.n = u.pos.n + jj) :
    decide (toast.nxy_tile_filter r.n r.x r.y u = some true)
      = decide (u.pos.x = r.x / 2 ^ jj ∧ u.pos.y = r.y / 2 ^ jj) := by
  unfold toast.nxy_tile_filter
  rw [if_neg (by omega)]
  rw [is_subtile_char jj ⟨r.n, r.x, r.y⟩ u.pos (by simp; omega)]
  refine decide_eq_decide.mpr ?_
  simp only [Option.some.injEq, decide_eq_true_eq]

theorem chain_lemma {C : Type} (mid : C → C → C) (r : Pos) (D : Int)
    (hr1 : 1 ≤ r.n) (hrD : r.n ≤ D) :
    ∀ (j : Nat) (t : Tile C), r.n = t.pos.n + j → 1 ≤ t.pos.n →
      t.pos.x = r.x / 2 ^ j → t.pos.y = r.y / 2 ^ j →
      (toast._postfix_corner mid D true
          (fun u => decide (toast.nxy_tile_filter r.n r.x r.y u = some true)) t).map Tile.pos =
        (zleaves (D - r.n).toNat r.x r.y).map (fun d => (⟨D, d.1, d.2⟩ : Pos)) := by
  intro j
  induction j with
  | zero =>
    intro t hj h1 hx hy
    simp only [pow_zero, Int.ediv_one] at hx hy
    have hfuel : (D + 1 - t.pos.n).toNat = (D - r.n).toNat + 1 := by omega
    simp only [toast._postfix_corner]
    rw [hfuel]
    have hf : ∀ u : Tile C, t.pos.n < u.pos.n →
        (fun u => decide (toast.nxy_tile_filter r.n r.x r.y u = some true)) u = true := by
      intro u hu
      exact nxyB_deep r u (by omega)
    have hft : (fun u => decide (toast.nxy_tile_filter r.n r.x r.y u = some true)) t = true := by
      show decide (toast.nxy_tile_filter r.n r.x r.y t = some true) = true
      rw [nxyB_eval r 0 t (by omega) (by omega)]
      simp only [pow_zero, Int.ediv_one]
      exact decide_eq_true ⟨hx, hy⟩
    rw [pcz mid _ ((D - r.n).toNat) t hf hft]
    rw [hx, hy]
    refine List.map_congr_left ?_
    intro d _
    rw [show t.pos.n + ((D - r.n).toNat : Int) = D by omega]
  | succ j ih =>
    intro t hj h1 hx hy
    have hlt : t.pos.n < r.n := by omega
    have hfuel : (D + 1 - t.pos.n).toNat = (D - t.pos.n - 1).toNat + 2 := by omega
    simp only [toast._postfix_corner]
    rw [hfuel, pcAux_succ]
    have hft : (fun u => decide (toast.nxy_tile_filter r.n r.x r.y u = some true)) t = true := by
      show decide (toast.nxy_tile_filter r.n r.x r.y t = some true) = true
      rw [nxyB_eval r (j + 1) t (by omega) (by omega)]
      exact decide_eq_true ⟨hx, hy⟩
    rw [if_neg (by simp [hft])]
    have hXa : r.x / 2 ^ j / 2 = t.pos.x := by rw [ediv_pow_succ, ← hx]
    have hYb : r.y / 2 ^ j / 2 = t.pos.y := by rw [ediv_pow_succ, ← hy]
    have ha : r.x / 2 ^ j = 2 * t.pos.x ∨ r.x / 2 ^ j = 2 * t.pos.x + 1 := by omega
    have hb : r.y / 2 ^ j = 2 * t.pos.y ∨ r.y / 2 ^ j = 2 * t.pos.y + 1 := by omega
    have hchildpc : ∀ u : Tile C, u.pos.n = t.pos.n + 1 →
        (toast.pcAux mid true
            (fun u => decide (toast.nxy_tile_filter r.n r.x r.y u = some true))
            ((D - t.pos.n - 1).toNat + 1) u).map Tile.pos =
          (if u.pos.x = r.x / 2 ^ j ∧ u.pos.y = r.y / 2 ^ j
           then (zleaves (D - r.n).toNat r.x r.y).map (fun d => (⟨D, d.1, d.2⟩ : Pos))
           else []) := by
      intro u hu
      by_cases hm : u.pos.x = r.x / 2 ^ j ∧ u.pos.y = r.y / 2 ^ j
      · rw [if_pos hm]
        have hres := ih u (by omega) (by omega) hm.1 hm.2
        simpa only [toast._postfix_corner,
          show (D + 1 - u.pos.n).toNat = (D - t.pos.n - 1).toNat + 1 by omega] using hres
      · rw [if_neg hm, pcAux_neg, List.map_nil]
        show decide (toast.nxy_tile_filter r.n r.x r.y u = some true) = false
        rw [nxyB_eval r j u (by omega) (by omega)]
        exact decide_eq_false hm
    simp only [toast._div4, List.flatMap_cons, List.flatMap_nil, List.append_nil,
      List.map_append]
    rw [hchildpc _ rfl, hchildpc _ rfl, hchildpc _ rfl, hchildpc _ rfl]
    dsimp only
    have htail : ((D - t.pos.n - 1).toNat + 1 = 0 ∨ ¬ (true : Bool) = true) = False := by
      simp
    split_ifs with h1' h2' h3' h4' <;> first
      | (exfalso; omega)
      | simp_all
      | simp

/-- C5: for a region position `r` (valid coordinates, depth at least 1)
and any depth `D ≥ r.n`, the bottom-only traversal filtered by
`nxy_tile_filter(r.n, r.x, r.y)` yields exactly the depth-`D`
descendants of `r` in the ascent-based sense of `is_subtile`, each
position exactly once. -/
theorem region_filter_exact {C : Type} (mid : C → C → C) (l1 l2 l3 l4 : C × C × C × C)
    (r : Pos) (D : Int) (hr1 : 1 ≤ r.n) (hrD : r.n ≤ D)
    (hx0 : 0 ≤ r.x) (hx2 : r.x < 2 ^ r.n.toNat) (hy0 : 0 ≤ r.y) (hy2 : r.y < 2 ^ r.n.toNat) :
    ((toast.iter_corners mid l1 l2 l3 l4 D true
        (fun u => decide (toast.nxy_tile_filter r.n r.x r.y u = some true))).map
          Tile.pos).Nodup ∧
      ∀ p : Pos,
        p ∈ (toast.iter_corners mid l1 l2 l3 l4 D true
            (fun u => decide (toast.nxy_tile_filter r.n r.x r.y u = some true))).map Tile.pos ↔
          (p.n = D ∧ toast.is_subtile p r = some true) := by
  set j1 := (r.n - 1).toNat with hj1def
  set K := (D - r.n).toNat with hKdef
  have hnt : r.n.toNat = j1 + 1 := by omega
  rw [hnt, pow_succ] at hx2 hy2
  have ha1 := ediv_small r.x (2 ^ j1) (two_pow_pos j1) hx0 (by omega)
  have hb1 := ediv_small r.y (2 ^ j1) (two_pow_pos j1) hy0 (by omega)
  have hbase : ∀ u : Tile C, u.pos.n = 1 →
      (toast._postfix_corner mid D true
          (fun u => decide (toast.nxy_tile_filter r.n r.x r.y u = some true)) u).map
          Tile.pos =
        (if u.pos.x = r.x / 2 ^ j1 ∧ u.pos.y = r.y / 2 ^ j1
         then (zleaves K r.x r.y).map (fun d => (⟨D, d.1, d.2⟩ : Pos))
         else []) := by
    intro u hu
    by_cases hm : u.pos.x = r.x / 2 ^ j1 ∧ u.pos.y = r.y / 2 ^ j1
    · rw [if_pos hm]
      exact chain_lemma mid r D hr1 hrD j1 u (by omega) (by omega) hm.1 hm.2
    · rw [if_neg hm]
      simp only [toast._postfix_corner]
      rw [pcAux_neg, List.map_nil]
      show decide (toast.nxy_tile_filter r.n r.x r.y u = some true) = false
      rw [nxyB_eval r j1 u (by omega) (by omega)]
      exact decide_eq_false hm
  have hmain : (toast.iter_corners mid l1 l2 l3 l4 D true
      (fun u => decide (toast.nxy_tile_filter r.n r.x r.y u = some true))).map Tile.pos =
      (zleaves K r.x r.y).map (fun d => (⟨D, d.1, d.2⟩ : Pos)) := by
    simp only [toast.iter_corners, List.flatMap_cons, List.flatMap_nil, List.append_nil,
      List.map_append]
    rw [hbase _ rfl, hbase _ rfl, hbase _ rfl, hbase _ rfl]
    dsimp only
    split_ifs <;> first
      | (exfalso; omega)
      | simp_all
      | simp
  constructor
  · rw [hmain]
    refine List.Nodup.map ?_ (zleaves_nodup K r.x r.y)
    intro d e h
    rcases d with ⟨d1, d2⟩
    rcases e with ⟨e1, e2⟩
    simp only [Pos.mk.injEq] at h
    simp only [Prod.mk.injEq]
    exact ⟨h.2.1, h.2.2⟩
  · intro p
    rw [hmain]
    constructor
    · intro hp
      obtain ⟨d, hd, rfl⟩ := List.mem_map.mp hp
      rw [zmem] at hd
      refine ⟨rfl, ?_⟩
      rw [is_subtile_char K ⟨D, d.1, d.2⟩ r (by simp; omega)]
      simp only [Option.some.injEq]
      refine decide_eq_true ⟨?_, ?_⟩
      · exact hd.1.symm
      · exact hd.2.symm
    · rintro ⟨hn, hsub⟩
      rcases p with ⟨pn, px, py⟩
      have hpn : pn = D := hn
      rw [is_subtile_char K ⟨pn, px, py⟩ r (by show pn = r.n + (K : Int); omega)] at hsub
      simp only [Option.some.injEq, decide_eq_true_eq] at hsub
      refine List.mem_map.mpr ⟨(px, py), ?_, ?_⟩
      · rw [zmem]
        exact ⟨hsub.1.symm, hsub.2.symm⟩
      · rw [hpn]

/-- Witness for C5 at the concrete region `r = (1, 0, 0)`, depth
`D = 1`, with a trivial corner type. -/
theorem region_filter_exact_witness :
    ((1 : Int) ≤ (⟨1, 0, 0⟩ : Pos).n ∧ (⟨1, 0, 0⟩ : Pos).n ≤ 1 ∧
      (0 : Int) ≤ (⟨1, 0, 0⟩ : Pos).x ∧ (⟨1, 0, 0⟩ : Pos).x < 2 ^ ((⟨1, 0, 0⟩ : Pos).n.toNat) ∧
      (0 : Int) ≤ (⟨1, 0, 0⟩ : Pos).y ∧ (⟨1, 0, 0⟩ : Pos).y < 2 ^ ((⟨1, 0, 0⟩ : Pos).n.toNat)) ∧
    (((toast.iter_corners (fun _ _ => ()) ((), (), (), ()) ((), (), (), ()) ((), (), (), ())
        ((), (), (), ()) 1 true (fun u => decide (toast.nxy_tile_filter (⟨1, 0, 0⟩ : Pos).n
          (⟨1, 0, 0⟩ : Pos).x (⟨1, 0, 0⟩ : Pos).y u = some true))).map Tile.pos).Nodup ∧
      ∀ p : Pos,
        p ∈ (toast.iter_corners (fun _ _ => ()) ((), (), (), ()) ((), (), (), ())
            ((), (), (), ()) ((), (), (), ()) 1 true
            (fun u => decide (toast.nxy_tile_filter (⟨1, 0, 0⟩ : Pos).n (⟨1, 0, 0⟩ : Pos).x
              (⟨1, 0, 0⟩ : Pos).y u = some true))).map Tile.pos ↔
          (p.n = 1 ∧ toast.is_subtile p ⟨1, 0, 0⟩ = some true)) :=
  ⟨⟨by decide, by decide, by decide, by decide, by decide, by decide⟩,
    region_filter_exact (fun _ _ => ()) ((), (), (), ()) ((), (), (), ()) ((), (), (), ())
      ((), (), (), ()) ⟨1, 0, 0⟩ 1 (by decide) (by decide) (by decide) (by decide)
      (by decide) (by decide)⟩

/-- C3 counterexample: at depth `D = 0` the traversal yields nothing
(the four base tiles already have depth `1 > 0`), not `4^0 = 1` tiles. -/
theorem iter_corners_depth0_empty :
    ¬ ((toast.iter_corners (fun _ _ => ()) ((), (), (), ()) ((), (), (), ()) ((), (), (), ())
        ((), (), (), ()) 0 true fun _ => true).length = 4 ^ ((0 : Int).toNat)) := by
  decide

/-- C3 as amended: for every depth `D ≥ 1` the traversal
`iter_corners(D, bottom_only=True)` with the always-accepting filter
yields exactly `4^D` tiles, each of depth `D`, with no duplicate
positions and no valid depth-`D` position omitted. -/
theorem bottom_traversal_complete {C : Type} (mid : C → C → C)
    (l1 l2 l3 l4 : C × C × C × C) (D : Int) (hD : 1 ≤ D) :
    ((toast.iter_corners mid l1 l2 l3 l4 D true fun _ => true).map Tile.pos).length
        = 4 ^ D.toNat ∧
      (∀ p ∈ (toast.iter_corners mid l1 l2 l3 l4 D true fun _ => true).map Tile.pos,
        p.n = D) ∧
      ((toast.iter_corners mid l1 l2 l3 l4 D true fun _ => true).map Tile.pos).Nodup ∧
      (∀ a b : Int, 0 ≤ a → a < 2 ^ D.toNat → 0 ≤ b → b < 2 ^ D.toNat →
        (⟨D, a, b⟩ : Pos) ∈
          (toast.iter_corners mid l1 l2 l3 l4 D true fun _ => true).map Tile.pos) := by
  set k := (D - 1).toNat with hk
  have hDk : D.toNat = k + 1 := by omega
  have hmain : (toast.iter_corners mid l1 l2 l3 l4 D true fun _ => true).map Tile.pos =
      (zleaves k 0 0 ++ zleaves k 1 0 ++ zleaves k 1 1 ++ zleaves k 0 1).map
        (fun d => (⟨D, d.1, d.2⟩ : Pos)) := by
    have hpc : ∀ t : Tile C, t.pos.n = 1 →
        (toast._postfix_corner mid D true (fun _ => true) t).map Tile.pos =
          (zleaves k t.pos.x t.pos.y).map (fun d => (⟨D, d.1, d.2⟩ : Pos)) := by
      intro t ht
      have hfuel : (D + 1 - t.pos.n).toNat = k + 1 := by omega
      simp only [toast._postfix_corner]
      rw [hfuel, pcz mid (fun _ => true) k t (fun _ _ => rfl) rfl]
      refine List.map_congr_left ?_
      intro d _
      rw [show t.pos.n + (k : Int) = D by omega]
    simp only [toast.iter_corners, List.flatMap_cons, List.flatMap_nil, List.append_nil,
      List.map_append]
    rw [hpc _ rfl, hpc _ rfl, hpc _ rfl, hpc _ rfl]
    simp only [List.map_append, List.append_assoc]
  have hdisj : ∀ (x1 y1 x2 y2 : Int), ¬ (x1 = x2 ∧ y1 = y2) →
      (zleaves k x1 y1).Disjoint (zleaves k x2 y2) := by
    intro x1 y1 x2 y2 hne p h1 h2
    rcases p with ⟨a, b⟩
    rw [zmem] at h1 h2
    exact hne ⟨by omega, by omega⟩
  refine ⟨?_, ?_, ?_, ?_⟩
  · rw [hmain]
    simp only [List.length_map, List.length_append, zleaves_length]
    rw [hDk]
    ring
  · rw [hmain]
    intro p hp
    simp only [List.mem_map] at hp
    obtain ⟨d, _, rfl⟩ := hp
    rfl
  · rw [hmain]
    refine List.Nodup.map ?_ ?_
    · intro d e h
      rcases d with ⟨d1, d2⟩
      rcases e with ⟨e1, e2⟩
      simp only [Pos.mk.injEq] at h
      simp only [Prod.mk.injEq]
      exact ⟨h.2.1, h.2.2⟩
    · refine ((((zleaves_nodup k 0 0).append (zleaves_nodup k 1 0)
        (hdisj _ _ _ _ (by omega))).append (zleaves_nodup k 1 1) ?_).append
        (zleaves_nodup k 0 1) ?_)
      · intro p h1 h2
        rcases p with ⟨a, b⟩
        rw [List.mem_append] at h1
        rw [zmem] at h2
        rcases h1 with h1 | h1 <;> rw [zmem] at h1 <;> omega
      · intro p h1 h2
        rcases p with ⟨a, b⟩
        rw [List.mem_append, List.mem_append] at h1
        rw [zmem] at h2
        rcases h1 with (h1 | h1) | h1 <;> rw [zmem] at h1 <;> omega
  · intro a b ha0 ha hb0 hb
    rw [hmain]
    rw [hDk, pow_succ] at ha hb
    have hqa := ediv_small a (2 ^ k) (two_pow_pos k) ha0 (by omega)
    have hqb := ediv_small b (2 ^ k) (two_pow_pos k) hb0 (by omega)
    refine List.mem_map.mpr ⟨(a, b), ?_, rfl⟩
    simp only [List.mem_append, zmem]
    omega

/-- Witness for C3 (amended) at depth `D = 1` with a trivial corner
type. -/
theorem bottom_traversal_complete_witness :
    (1 : Int) ≤ 1 ∧
      (((toast.iter_corners (fun _ _ => ()) ((), (), (), ()) ((), (), (), ()) ((), (), (), ())
          ((), (), (), ()) 1 true fun _ => true).map Tile.pos).length
        = 4 ^ (1 : Int).toNat ∧
      (∀ p ∈ (toast.iter_corners (fun _ _ => ()) ((), (), (), ()) ((), (), (), ())
          ((), (), (), ()) ((), (), (), ()) 1 true fun _ => true).map Tile.pos,
        p.n = 1) ∧
      ((toast.iter_corners (fun _ _ => ()) ((), (), (), ()) ((), (), (), ()) ((), (), (), ())
          ((), (), (), ()) 1 true fun _ => true).map Tile.pos).Nodup ∧
      (∀ a b : Int, 0 ≤ a → a < 2 ^ (1 : Int).toNat → 0 ≤ b → b < 2 ^ (1 : Int).toNat →
        (⟨1, a, b⟩ : Pos) ∈ (toast.iter_corners (fun _ _ => ()) ((), (), (), ())
          ((), (), (), ()) ((), (), (), ()) ((), (), (), ()) 1 true fun _ => true).map
            Tile.pos)) :=
  ⟨by norm_num, bottom_traversal_complete (fun _ _ => ()) ((), (), (), ()) ((), (), (), ())
    ((), (), (), ()) ((), (), (), ()) 1 (by norm_num)⟩

theorem runTiles_nil {C : Type} (resolve : Tile C → Option Img)
    (merge : Option (Img → Img)) (depth top : Int) (blo : Bool) (P : ParentsMap) :
    toast.runTiles resolve merge depth top blo [] P = ([], P, true) := rfl

theorem runTiles_cons {C : Type} (resolve : Tile C → Option Img)
    (merge : Option (Img → Img)) (depth top : Int) (blo : Bool) (t : Tile C)
    (ts : List (Tile C)) (P : ParentsMap) :
    toast.runTiles resolve merge depth top blo (t :: ts) P =
      (let img := resolve t
       if img = none ∧ blo then
         toast.runTiles resolve merge depth top blo ts P
       else if ¬ blo then
         let r := toast._trickle_up merge depth top img t.pos P
         let s := toast.runTiles resolve merge depth top blo ts r.2.1
         ((r.1.filter fun pr => pr.2.isSome) ++ s.1, s.2.1, r.2.2 && s.2.2)
       else
         let s := toast.runTiles resolve merge depth top blo ts P
         ((toast.mkPath t.pos.n t.pos.x t.pos.y, img) :: s.1, s.2.1, s.2.2)) := rfl

theorem al_erase_set {α β : Type} [DecidableEq α] (l : List (α × β)) (k : α) (v : β) :
    alErase (alSet l k v) k = alErase l k := by
  induction l with
  | nil => simp [alSet, alErase]
  | cons e t ih =>
    by_cases he : e.1 = k
    · simp [alSet, alErase, he]
    · simp [alSet, alErase, he, ih]

theorem al_set_length_ub {α β : Type} [DecidableEq α] (l : List (α × β)) (k : α) (v : β) :
    (alSet l k v).length ≤ l.length + 1 := by
  induction l with
  | nil => simp [alSet]
  | cons e t ih =>
    by_cases he : e.1 = k
    · simp [alSet, he]
    · simp only [alSet, he, if_neg, not_false_iff, List.length_cons]
      omega

theorem al_set_length_lb {α β : Type} [DecidableEq α] (l : List (α × β)) (k : α) (v : β) :
    l.length ≤ (alSet l k v).length := by
  induction l with
  | nil => simp [alSet]
  | cons e t ih =>
    by_cases he : e.1 = k
    · simp [alSet, he]
    · simp only [alSet, he, if_neg, not_false_iff, List.length_cons]
      omega

theorem al_get_set_self {α β : Type} [DecidableEq α] (l : List (α × β)) (k : α) (v : β) :
    alGet (alSet l k v) k = some v := by
  induction l with
  | nil => simp [alSet, alGet]
  | cons e t ih =>
    by_cases he : e.1 = k
    · simp [alSet, alGet, he]
    · simp [alSet, alGet, he, ih]

theorem al_get_set_ne {α β : Type} [DecidableEq α] (l : List (α × β)) (k k2 : α) (v : β)
    (hne : ¬ k2 = k) : alGet (alSet l k v) k2 = alGet l k2 := by
  induction l with
  | nil =>
    simp only [alSet, alGet]
    rw [if_neg (fun hc => hne hc.symm)]
  | cons e t ih =>
    by_cases he : e.1 = k
    · have h1 : ¬ (k = k2) := fun hc => hne hc.symm
      have h2 : ¬ (e.1 = k2) := fun hc => hne (hc.symm.trans he)
      simp [alSet, alGet, he, h1, h2]
    · simp [alSet, alGet, he, ih]

theorem nparent_erase_le (P : ParentsMap) (k : Pos) :
    toast.nparent (alErase P k) + ((alGet P k).getD []).length ≤ toast.nparent P := by
  induction P with
  | nil => simp [alErase, alGet, toast.nparent]
  | cons e t ih =>
    simp only [toast.nparent, List.map_cons, List.sum_cons] at ih ⊢
    by_cases he : e.1 = k
    · simp only [alErase, alGet, he, if_pos, Option.getD_some]
      omega
    · simp only [alErase, alGet, he, if_neg, not_false_iff, List.map_cons, List.sum_cons]
      omega

theorem nparent_set_get (P : ParentsMap) (k : Pos) (v : CornerDict) :
    toast.nparent (alSet P k v) + ((alGet P k).getD []).length =
      toast.nparent P + v.length := by
  induction P with
  | nil => simp [alSet, alGet, toast.nparent]
  | cons e t ih =>
    simp only [toast.nparent, List.map_cons, List.sum_cons] at ih ⊢
    by_cases he : e.1 = k
    · simp only [alSet, alGet, he, if_pos, Option.getD_some, List.map_cons, List.sum_cons]
      omega
    · simp only [alSet, alGet, he, if_neg, not_false_iff, List.map_cons, List.sum_cons]
      omega

theorem al_erase_of_none {α β : Type} [DecidableEq α] (l : List (α × β)) (k : α)
    (h : alGet l k = none) : alErase l k = l := by
  induction l with
  | nil => rfl
  | cons e t ih =>
    rw [alGet] at h
    by_cases he : e.1 = k
    · rw [if_pos he] at h
      exact absurd h (by simp)
    · rw [if_neg he] at h
      rw [alErase, if_neg he, ih h]

theorem trickleAux_mono (merge : Option (Img → Img)) (depth top : Int) :
    ∀ (f g : Nat) (im : Option Img) (node : Pos) (parents : ParentsMap),
      toast.nparent parents + 1 ≤ f → toast.nparent parents + 1 ≤ g →
      toast.trickleAux merge depth top f im node parents =
        toast.trickleAux merge depth top g im node parents := by
  intro f
  induction f with
  | zero =>
    intro g im node parents hf hg
    exact absurd hf (by omega)
  | succ f ih =>
    intro g im node parents hf hg
    cases g with
    | zero => exact absurd hg (by omega)
    | succ g =>
      simp only [toast.trickleAux]
      by_cases h1 : node.n = top
      · rw [if_pos h1, if_pos h1]
      rw [if_neg h1, if_neg h1]
      by_cases h2 : merge.isNone ∧ node.n > 1
      · rw [if_pos h2, if_pos h2]
      rw [if_neg h2, if_neg h2]
      by_cases h4 : (alSet ((alGet parents (toast._parent node).1).getD [])
          ((toast._parent node).2.1, (toast._parent node).2.2) im).length < 4
      · rw [if_pos h4, if_pos h4]
      rw [if_neg h4, if_neg h4]
      have h3 : 3 ≤ ((alGet parents (toast._parent node).1).getD []).length := by
        have := al_set_length_ub ((alGet parents (toast._parent node).1).getD [])
          ((toast._parent node).2.1, (toast._parent node).2.2) im
        omega
      have he := nparent_erase_le parents (toast._parent node).1
      rw [al_erase_set]
      cases hA : alGet (alSet ((alGet parents (toast._parent node).1).getD [])
          ((toast._parent node).2.1, (toast._parent node).2.2) im) ((0 : Int), (0 : Int)) with
      | none => rfl
      | some ul =>
      cases hB : alGet (alSet ((alGet parents (toast._parent node).1).getD [])
          ((toast._parent node).2.1, (toast._parent node).2.2) im) ((1 : Int), (0 : Int)) with
      | none => rfl
      | some ur =>
      cases hC : alGet (alSet ((alGet parents (toast._parent node).1).getD [])
          ((toast._parent node).2.1, (toast._parent node).2.2) im) ((0 : Int), (1 : Int)) with
      | none => rfl
      | some bl =>
      cases hD : alGet (alSet ((alGet parents (toast._parent node).1).getD [])
          ((toast._parent node).2.1, (toast._parent node).2.2) im) ((1 : Int), (1 : Int)) with
      | none => rfl
      | some br =>
      dsimp only
      rw [ih g _ _ _ (by omega) (by omega)]

/-- One-step equations for `_trickle_up`, one per branch of the source:
stop at the configured top depth. -/
theorem trickle_eq_top (merge : Option (Img → Img)) (depth top : Int) (im : Option Img)
    (node : Pos) (parents : ParentsMap) (h1 : node.n = top) :
    toast._trickle_up merge depth top im node parents =
      ((if depth ≥ node.n then [(toast.mkPath node.n node.x node.y, im)] else []), parents,
        decide ((toast.nparent parents : Int) ≤ 4 * max depth 1)) := by
  show toast.trickleAux merge depth top (toast.nparent parents + 1) im node parents = _
  simp only [toast.trickleAux]
  rw [if_pos h1]

/-- Branch equation: merging disabled above the base level. -/
theorem trickle_eq_nomerge (merge : Option (Img → Img)) (depth top : Int) (im : Option Img)
    (node : Pos) (parents : ParentsMap) (h1 : ¬ node.n = top)
    (h2 : merge.isNone ∧ node.n > 1) :
    toast._trickle_up merge depth top im node parents =
      ((if depth ≥ node.n then [(toast.mkPath node.n node.x node.y, im)] else []), parents,
        decide ((toast.nparent parents : Int) ≤ 4 * max depth 1)) := by
  show toast.trickleAux merge depth top (toast.nparent parents + 1) im node parents = _
  simp only [toast.trickleAux]
  rw [if_neg h1, if_pos h2]

/-- Branch equation: the parent entry is still incomplete after this
registration, so the image is buffered and the cascade stops. -/
theorem trickle_eq_incomplete (merge : Option (Img → Img)) (depth top : Int)
    (im : Option Img) (node : Pos) (parents : ParentsMap) (h1 : ¬ node.n = top)
    (h2 : ¬ (merge.isNone ∧ node.n > 1))
    (h4 : (alSet ((alGet parents (toast._parent node).1).getD [])
      ((toast._parent node).2.1, (toast._parent node).2.2) im).length < 4) :
    toast._trickle_up merge depth top im node parents =
      ((if depth ≥ node.n then [(toast.mkPath node.n node.x node.y, im)] else []),
        alSet parents (toast._parent node).1
          (alSet ((alGet parents (toast._parent node).1).getD [])
            ((toast._parent node).2.1, (toast._parent node).2.2) im),
        decide ((toast.nparent parents : Int) ≤ 4 * max depth 1)) := by
  show toast.trickleAux merge depth top (toast.nparent parents + 1) im node parents = _
  simp only [toast.trickleAux]
  rw [if_neg h1, if_neg h2, if_pos h4]

/-- Branch equation: this registration completes the parent entry; the
entry is removed, the parent image is computed from the four quadrants
(all-absent propagates absence, otherwise absent quadrants are
zero-filled, the 2×2 mosaic is assembled and the merge function is
applied), and the reducer recurses on the parent. -/
theorem trickle_eq_complete (merge : Option (Img → Img)) (depth top : Int)
    (im : Option Img) (node : Pos) (parents : ParentsMap)
    (ul ur bl br : Option Img) (h1 : ¬ node.n = top)
    (h2 : ¬ (merge.isNone ∧ node.n > 1))
    (h4 : ¬ (alSet ((alGet parents (toast._parent node).1).getD [])
      ((toast._parent node).2.1, (toast._parent node).2.2) im).length < 4)
    (hul : alGet (alSet ((alGet parents (toast._parent node).1).getD [])
      ((toast._parent node).2.1, (toast._parent node).2.2) im) ((0 : Int), (0 : Int)) = some ul)
    (hur : alGet (alSet ((alGet parents (toast._parent node).1).getD [])
      ((toast._parent node).2.1, (toast._parent node).2.2) im) ((1 : Int), (0 : Int)) = some ur)
    (hbl : alGet (alSet ((alGet parents (toast._parent node).1).getD [])
      ((toast._parent node).2.1, (toast._parent node).2.2) im) ((0 : Int), (1 : Int)) = some bl)
    (hbr : alGet (alSet ((alGet parents (toast._parent node).1).getD [])
      ((toast._parent node).2.1, (toast._parent node).2.2) im) ((1 : Int), (1 : Int)) = some br) :
    toast._trickle_up merge depth top im node parents =
      (let im2 :=
        if ul = none ∧ ur = none ∧ bl = none ∧ br = none then none
        else
          let imgShape := toast.np_shape (toast.firstSome [ul, ur, bl, br])
          if imgShape = [] then none
          else
            some ((merge.getD toast._default_merge)
              (toast.np_vstack
                (toast.np_hstack (ul.getD (toast.np_zeros imgShape))
                  (ur.getD (toast.np_zeros imgShape)))
                (toast.np_hstack (bl.getD (toast.np_zeros imgShape))
                  (br.getD (toast.np_zeros imgShape)))))
      let r := toast._trickle_up merge depth top im2 (toast._parent node).1
        (alErase parents (toast._parent node).1)
      ((if depth ≥ node.n then [(toast.mkPath node.n node.x node.y, im)] else []) ++ r.1,
        r.2.1,
        decide ((toast.nparent parents : Int) ≤ 4 * max depth 1) && r.2.2)) := by
  show toast.trickleAux merge depth top (toast.nparent parents + 1) im node parents = _
  simp only [toast.trickleAux]
  rw [if_neg h1, if_neg h2, if_neg h4, al_erase_set, hul, hur, hbl, hbr]
  dsimp only
  have h3 : 3 ≤ ((alGet parents (toast._parent node).1).getD []).length := by
    have := al_set_length_ub ((alGet parents (toast._parent node).1).getD [])
      ((toast._parent node).2.1, (toast._parent node).2.2) im
    omega
  have he := nparent_erase_le parents (toast._parent node).1
  rw [show toast._trickle_up merge depth top _ (toast._parent node).1
      (alErase parents (toast._parent node).1) =
    toast.trickleAux merge depth top
      (toast.nparent (alErase parents (toast._parent node).1) + 1) _ (toast._parent node).1
      (alErase parents (toast._parent node).1) from rfl]
  rw [trickleAux_mono merge depth top (toast.nparent parents)
    (toast.nparent (alErase parents (toast._parent node).1) + 1) _ _ _
    (by omega) (by omega)]

theorem np_shape_ne_nil (x : Img) : ¬ toast.np_shape x = [] := by
  simp [toast.np_shape]

/-- C1: when the fourth quadrant image for a parent is registered (the
updated entry holds all four quadrant keys), the accumulator entry is
removed and the reducer continues on the parent with the parent image
computed as claimed: if all four quadrants are the "no data" sentinel
the parent image is the sentinel; otherwise each absent quadrant is
replaced by an all-zero array with the shape of the first present
sibling, the four images are assembled into the 2×2 mosaic (top-left,
top-right over bottom-left, bottom-right) and the merge function is
applied; the same procedure recurses on `(parent_image, parent)`. -/
theorem trickle_fourth_quadrant (merge : Option (Img → Img)) (depth top : Int)
    (im : Option Img) (node : Pos) (parents : ParentsMap)
    (ul ur bl br : Option Img) (htop : ¬ node.n = top)
    (hmerge : ¬ (merge.isNone ∧ node.n > 1))
    (hfull : ¬ (alSet ((alGet parents (toast._parent node).1).getD [])
      ((toast._parent node).2.1, (toast._parent node).2.2) im).length < 4)
    (hul : alGet (alSet ((alGet parents (toast._parent node).1).getD [])
      ((toast._parent node).2.1, (toast._parent node).2.2) im) ((0 : Int), (0 : Int)) = some ul)
    (hur : alGet (alSet ((alGet parents (toast._parent node).1).getD [])
      ((toast._parent node).2.1, (toast._parent node).2.2) im) ((1 : Int), (0 : Int)) = some ur)
    (hbl : alGet (alSet ((alGet parents (toast._parent node).1).getD [])
      ((toast._parent node).2.1, (toast._parent node).2.2) im) ((0 : Int), (1 : Int)) = some bl)
    (hbr : alGet (alSet ((alGet parents (toast._parent node).1).getD [])
      ((toast._parent node).2.1, (toast._parent node).2.2) im) ((1 : Int), (1 : Int)) = some br) :
    toast._trickle_up merge depth top im node parents =
      (let im2 :=
        if ul = none ∧ ur = none ∧ bl = none ∧ br = none then none
        else
          let imgShape := toast.np_shape (toast.firstSome [ul, ur, bl, br])
          some ((merge.getD toast._default_merge)
            (toast.np_vstack
              (toast.np_hstack (ul.getD (toast.np_zeros imgShape))
                (ur.getD (toast.np_zeros imgShape)))
              (toast.np_hstack (bl.getD (toast.np_zeros imgShape))
                (br.getD (toast.np_zeros imgShape)))))
      let r := toast._trickle_up merge depth top im2 (toast._parent node).1
        (alErase parents (toast._parent node).1)
      ((if depth ≥ node.n then [(toast.mkPath node.n node.x node.y, im)] else []) ++ r.1,
        r.2.1,
        decide ((toast.nparent parents : Int) ≤ 4 * max depth 1) && r.2.2)) := by
  rw [trickle_eq_complete merge depth top im node parents ul ur bl br htop hmerge hfull
    hul hur hbl hbr]
  rw [if_neg (np_shape_ne_nil (toast.firstSome [ul, ur, bl, br]))]

/-- Witness for C1: the base tile `(1, 0, 1)` completes the root entry
holding the other three quadrants. -/
theorem trickle_fourth_quadrant_witness :
    (¬ (⟨1, 0, 1⟩ : Pos).n = (0 : Int)) ∧
      toast._trickle_up (some id) 1 0 (some [[(4 : ℚ)]]) ⟨1, 0, 1⟩
        [(⟨0, 0, 0⟩, [(((0 : Int), (0 : Int)), some [[(1 : ℚ)]]),
          (((1 : Int), (0 : Int)), some [[(2 : ℚ)]]),
          (((1 : Int), (1 : Int)), some [[(3 : ℚ)]])])] =
      (let im2 :=
        if some [[(1 : ℚ)]] = none ∧ some [[(2 : ℚ)]] = none ∧ some [[(4 : ℚ)]] = none ∧
            some [[(3 : ℚ)]] = none then none
        else
          let imgShape := toast.np_shape (toast.firstSome
            [some [[(1 : ℚ)]], some [[(2 : ℚ)]], some [[(4 : ℚ)]], some [[(3 : ℚ)]]])
          some ((Option.getD (some id) toast._default_merge)
            (toast.np_vstack
              (toast.np_hstack ((some [[(1 : ℚ)]]).getD (toast.np_zeros imgShape))
                ((some [[(2 : ℚ)]]).getD (toast.np_zeros imgShape)))
              (toast.np_hstack ((some [[(4 : ℚ)]]).getD (toast.np_zeros imgShape))
                ((some [[(3 : ℚ)]]).getD (toast.np_zeros imgShape)))))
      let r := toast._trickle_up (some id) 1 0 im2 (toast._parent ⟨1, 0, 1⟩).1
        (alErase [(⟨0, 0, 0⟩, [(((0 : Int), (0 : Int)), some [[(1 : ℚ)]]),
          (((1 : Int), (0 : Int)), some [[(2 : ℚ)]]),
          (((1 : Int), (1 : Int)), some [[(3 : ℚ)]])])] (toast._parent ⟨1, 0, 1⟩).1)
      ((if (1 : Int) ≥ (⟨1, 0, 1⟩ : Pos).n
          then [(toast.mkPath (⟨1, 0, 1⟩ : Pos).n (⟨1, 0, 1⟩ : Pos).x (⟨1, 0, 1⟩ : Pos).y,
            some [[(4 : ℚ)]])] else []) ++ r.1,
        r.2.1,
        decide ((toast.nparent [(⟨0, 0, 0⟩, [(((0 : Int), (0 : Int)), some [[(1 : ℚ)]]),
          (((1 : Int), (0 : Int)), some [[(2 : ℚ)]]),
          (((1 : Int), (1 : Int)), some [[(3 : ℚ)]])])] : Int) ≤ 4 * max 1 1) && r.2.2)) :=
  ⟨by decide, trickle_fourth_quadrant (some id) 1 0 (some [[(4 : ℚ)]]) ⟨1, 0, 1⟩
    [(⟨0, 0, 0⟩, [(((0 : Int), (0 : Int)), some [[(1 : ℚ)]]),
      (((1 : Int), (0 : Int)), some [[(2 : ℚ)]]),
      (((1 : Int), (1 : Int)), some [[(3 : ℚ)]])])]
    (some [[(1 : ℚ)]]) (some [[(2 : ℚ)]]) (some [[(4 : ℚ)]]) (some [[(3 : ℚ)]])
    (by decide) (by decide) (by decide) (by decide) (by decide) (by decide) (by decide)⟩

theorem corner_count_le_nparent (P : ParentsMap) (k : Pos) :
    ((alGet P k).getD []).length ≤ toast.nparent P := by
  have := nparent_erase_le P k
  omega

theorem trickleAux_ok (merge : Option (Img → Img)) (depth top : Int) :
    ∀ (fuel : Nat) (im : Option Img) (node : Pos) (parents : ParentsMap),
      ((toast.nparent parents : Int) ≤ 4 * max depth 1) →
      (toast.trickleAux merge depth top fuel im node parents).2.2 = true := by
  intro fuel
  induction fuel with
  | zero => intro im node parents hB; rfl
  | succ fuel ih =>
    intro im node parents hB
    simp only [toast.trickleAux]
    by_cases h1 : node.n = top
    · rw [if_pos h1]
      exact decide_eq_true hB
    rw [if_neg h1]
    by_cases h2 : merge.isNone ∧ node.n > 1
    · rw [if_pos h2]
      exact decide_eq_true hB
    rw [if_neg h2]
    by_cases h4 : (alSet ((alGet parents (toast._parent node).1).getD [])
        ((toast._parent node).2.1, (toast._parent node).2.2) im).length < 4
    · rw [if_pos h4]
      exact decide_eq_true hB
    rw [if_neg h4]
    have h3 : 3 ≤ ((alGet parents (toast._parent node).1).getD []).length := by
      have := al_set_length_ub ((alGet parents (toast._parent node).1).getD [])
        ((toast._parent node).2.1, (toast._parent node).2.2) im
      omega
    have he := nparent_erase_le parents (toast._parent node).1
    rw [al_erase_set]
    cases hA : alGet (alSet ((alGet parents (toast._parent node).1).getD [])
        ((toast._parent node).2.1, (toast._parent node).2.2) im) ((0 : Int), (0 : Int)) with
    | none => exact decide_eq_true hB
    | some ul =>
    cases hB2 : alGet (alSet ((alGet parents (toast._parent node).1).getD [])
        ((toast._parent node).2.1, (toast._parent node).2.2) im) ((1 : Int), (0 : Int)) with
    | none => exact decide_eq_true hB
    | some ur =>
    cases hC : alGet (alSet ((alGet parents (toast._parent node).1).getD [])
        ((toast._parent node).2.1, (toast._parent node).2.2) im) ((0 : Int), (1 : Int)) with
    | none => exact decide_eq_true hB
    | some bl =>
    cases hD : alGet (alSet ((alGet parents (toast._parent node).1).getD [])
        ((toast._parent node).2.1, (toast._parent node).2.2) im) ((1 : Int), (1 : Int)) with
    | none => exact decide_eq_true hB
    | some br =>
    dsimp only
    rw [decide_eq_true hB, Bool.true_and]
    exact ih _ _ _ (by push_cast; omega)

theorem trickle_ok (merge : Option (Img → Img)) (depth top : Int) (im : Option Img)
    (node : Pos) (parents : ParentsMap)
    (hB : (toast.nparent parents : Int) ≤ 4 * max depth 1) :
    (toast._trickle_up merge depth top im node parents).2.2 = true :=
  trickleAux_ok merge depth top _ im node parents hB

theorem trickleAux_growth (merge : Option (Img → Img)) (depth top : Int) :
    ∀ (fuel : Nat) (im : Option Img) (node : Pos) (parents : ParentsMap),
      toast.nparent ((toast.trickleAux merge depth top fuel im node parents).2.1) ≤
        toast.nparent parents + 1 := by
  intro fuel
  induction fuel with
  | zero => intro im node parents; simp [toast.trickleAux]
  | succ fuel ih =>
    intro im node parents
    simp only [toast.trickleAux]
    by_cases h1 : node.n = top
    · rw [if_pos h1]
      dsimp only
      omega
    rw [if_neg h1]
    by_cases h2 : merge.isNone ∧ node.n > 1
    · rw [if_pos h2]
      dsimp only
      omega
    rw [if_neg h2]
    by_cases h4 : (alSet ((alGet parents (toast._parent node).1).getD [])
        ((toast._parent node).2.1, (toast._parent node).2.2) im).length < 4
    · rw [if_pos h4]
      dsimp only
      have hs := nparent_set_get parents (toast._parent node).1
        (alSet ((alGet parents (toast._parent node).1).getD [])
          ((toast._parent node).2.1, (toast._parent node).2.2) im)
      have hub := al_set_length_ub ((alGet parents (toast._parent node).1).getD [])
        ((toast._parent node).2.1, (toast._parent node).2.2) im
      omega
    rw [if_neg h4]
    have h3 : 3 ≤ ((alGet parents (toast._parent node).1).getD []).length := by
      have := al_set_length_ub ((alGet parents (toast._parent node).1).getD [])
        ((toast._parent node).2.1, (toast._parent node).2.2) im
      omega
    have he := nparent_erase_le parents (toast._parent node).1
    rw [al_erase_set]
    cases hA : alGet (alSet ((alGet parents (toast._parent node).1).getD [])
        ((toast._parent node).2.1, (toast._parent node).2.2) im) ((0 : Int), (0 : Int)) with
    | none => dsimp only; omega
    | some ul =>
    cases hB2 : alGet (alSet ((alGet parents (toast._parent node).1).getD [])
        ((toast._parent node).2.1, (toast._parent node).2.2) im) ((1 : Int), (0 : Int)) with
    | none => dsimp only; omega
    | some ur =>
    cases hC : alGet (alSet ((alGet parents (toast._parent node).1).getD [])
        ((toast._parent node).2.1, (toast._parent node).2.2) im) ((0 : Int), (1 : Int)) with
    | none => dsimp only; omega
    | some bl =>
    cases hD : alGet (alSet ((alGet parents (toast._parent node).1).getD [])
        ((toast._parent node).2.1, (toast._parent node).2.2) im) ((1 : Int), (1 : Int)) with
    | none => dsimp only; omega
    | some br =>
    dsimp only
    have := ih (if ul = none ∧ ur = none ∧ bl = none ∧ br = none then none
      else
        if toast.np_shape (toast.firstSome [ul, ur, bl, br]) = [] then none
        else
          some ((merge.getD toast._default_merge)
            (toast.np_vstack
              (toast.np_hstack (ul.getD (toast.np_zeros
                (toast.np_shape (toast.firstSome [ul, ur, bl, br]))))
                (ur.getD (toast.np_zeros
                  (toast.np_shape (toast.firstSome [ul, ur, bl, br])))))
              (toast.np_hstack (bl.getD (toast.np_zeros
                (toast.np_shape (toast.firstSome [ul, ur, bl, br]))))
                (br.getD (toast.np_zeros
                  (toast.np_shape (toast.firstSome [ul, ur, bl, br]))))))))
      (toast._parent node).1 (alErase parents (toast._parent node).1)
    omega

theorem trickle_growth (merge : Option (Img → Img)) (depth top : Int) (im : Option Img)
    (node : Pos) (parents : ParentsMap) :
    toast.nparent ((toast._trickle_up merge depth top im node parents).2.1) ≤
      toast.nparent parents + 1 :=
  trickleAux_growth merge depth top _ im node parents

theorem runTiles_append {C : Type} (resolve : Tile C → Option Img)
    (merge : Option (Img → Img)) (depth top : Int) (blo : Bool) :
    ∀ (A B : List (Tile C)) (P : ParentsMap),
      toast.runTiles resolve merge depth top blo (A ++ B) P =
        ((toast.runTiles resolve merge depth top blo A P).1 ++
            (toast.runTiles resolve merge depth top blo B
              (toast.runTiles resolve merge depth top blo A P).2.1).1,
          (toast.runTiles resolve merge depth top blo B
            (toast.runTiles resolve merge depth top blo A P).2.1).2.1,
          (toast.runTiles resolve merge depth top blo A P).2.2 &&
            (toast.runTiles resolve merge depth top blo B
              (toast.runTiles resolve merge depth top blo A P).2.1).2.2) := by
  intro A
  induction A with
  | nil =>
    intro B P
    rw [List.nil_append, runTiles_nil]
    simp
  | cons t A ih =>
    intro B P
    rw [List.cons_append, runTiles_cons, runTiles_cons]
    by_cases hc1 : resolve t = none ∧ blo
    · rw [if_pos hc1, if_pos hc1, ih]
    rw [if_neg hc1, if_neg hc1]
    by_cases hb : blo
    · rw [if_neg (by simpa using hb), if_neg (by simpa using hb)]
      dsimp only
      rw [ih]
      simp [List.append_assoc]
    · rw [if_pos (by simpa using hb), if_pos (by simpa using hb)]
      dsimp only
      rw [ih]
      simp [List.append_assoc, Bool.and_assoc]

theorem div4_depth {C : Type} (mid : C → C → C) (t : Tile C) :
    ∀ c ∈ toast._div4 mid t, c.pos.n = t.pos.n + 1 := by
  intro c hc
  simp only [toast._div4, List.mem_cons, List.not_mem_nil, or_false] at hc
  rcases hc with h | h | h | h <;> subst h <;> rfl

theorem pcAux_depth_ge {C : Type} (mid : C → C → C) (bo : Bool) (f : Tile C → Bool) :
    ∀ (k : Nat) (t : Tile C) (u : Tile C), u ∈ toast.pcAux mid bo f k t →
      t.pos.n ≤ u.pos.n := by
  intro k
  induction k with
  | zero => intro t u hu; simp [toast.pcAux] at hu
  | succ k ih =>
    intro t u hu
    rw [pcAux_succ] at hu
    by_cases hft : f t
    · rw [if_neg (by simpa using hft)] at hu
      rw [List.mem_append, List.mem_flatMap] at hu
      rcases hu with ⟨c, hc, hu⟩ | hu
      · have h1 := div4_depth mid t c hc
        have h2 := ih c u hu
        omega
      · rcases hyield : (if k = 0 ∨ ¬ bo then [t] else []) with _ | ⟨a, l⟩
        · rw [hyield] at hu
          simp at hu
        · rw [hyield] at hu
          have : a = t ∧ l = [] := by
            by_cases hky : k = 0 ∨ ¬ bo
            · rw [if_pos hky] at hyield
              exact ⟨(List.cons.injEq _ _ _ _ ▸ hyield.symm).1.symm ▸ rfl, by
                have := hyield.symm
                simp at this
                exact this.2.symm ▸ rfl⟩
            · rw [if_neg hky] at hyield
              simp at hyield
          rcases this with ⟨ha, hl⟩
          subst ha
          subst hl
          simp at hu
          subst hu
          omega
    · rw [if_pos (by simpa using hft)] at hu
      simp at hu

theorem run_nomerge_untouched {C : Type} (resolve : Tile C → Option Img)
    (depth top : Int) :
    ∀ (ts : List (Tile C)) (P : ParentsMap),
      (∀ u ∈ ts, 2 ≤ u.pos.n) → ((toast.nparent P : Int) ≤ 4 * max depth 1) →
      (toast.runTiles resolve none depth top false ts P).2 = (P, true) := by
  intro ts
  induction ts with
  | nil => intro P _ _; rfl
  | cons t rest ih =>
    intro P hdep hB
    rw [runTiles_cons]
    rw [if_neg (by simp), if_pos (by simp)]
    have ht2 : 2 ≤ t.pos.n := hdep t (by simp)
    have hr2 : (toast._trickle_up none depth top (resolve t) t.pos P).2 =
        (P, decide ((toast.nparent P : Int) ≤ 4 * max depth 1)) := by
      by_cases h1 : t.pos.n = top
      · rw [trickle_eq_top none depth top _ _ _ h1]
      · rw [trickle_eq_nomerge none depth top _ _ _ h1 ⟨rfl, by omega⟩]
    have hp : (toast._trickle_up none depth top (resolve t) t.pos P).2.1 = P := by
      rw [hr2]
    have hok : (toast._trickle_up none depth top (resolve t) t.pos P).2.2 = true := by
      rw [hr2]
      exact decide_eq_true hB
    dsimp only
    rw [hp, hok, ih P (fun u hu => hdep u (by simp [hu])) hB, Bool.true_and]

theorem al_get_none_of {α β : Type} [DecidableEq α] (l : List (α × β)) (k : α)
    (h : ∀ e ∈ l, ¬ e.1 = k) : alGet l k = none := by
  induction l with
  | nil => rfl
  | cons e t ih =>
    rw [alGet, if_neg (h e (by simp))]
    exact ih fun u hu => h u (by simp [hu])

theorem al_mem_set {α β : Type} [DecidableEq α] (l : List (α × β)) (k : α) (v : β) :
    ∀ e ∈ alSet l k v, e ∈ l ∨ e.1 = k := by
  induction l with
  | nil =>
    intro e he
    simp only [alSet, List.mem_singleton] at he
    subst he
    exact Or.inr rfl
  | cons a t ih =>
    intro e he
    by_cases ha : a.1 = k
    · rw [alSet, if_pos ha] at he
      rcases List.mem_cons.mp he with h | h
      · subst h
        exact Or.inr rfl
      · exact Or.inl (List.mem_cons.mpr (Or.inr h))
    · rw [alSet, if_neg ha] at he
      rcases List.mem_cons.mp he with h | h
      · exact Or.inl (List.mem_cons.mpr (Or.inl h))
      · rcases ih e h with h2 | h2
        · exact Or.inl (List.mem_cons.mpr (Or.inr h2))
        · exact Or.inr h2

theorem parent_child_tl (n x y : Int) :
    toast._parent ⟨n + 1, 2 * x, 2 * y⟩ = (⟨n, x, y⟩, 0, 0) := by
  simp only [toast._parent, fdiv_two_mul, fmod_two_mul]
  norm_num [Pos.mk.injEq]

theorem parent_child_tr (n x y : Int) :
    toast._parent ⟨n + 1, 2 * x + 1, 2 * y⟩ = (⟨n, x, y⟩, 1, 0) := by
  simp only [toast._parent, fdiv_two_mul, fmod_two_mul, fdiv_two_mul_add, fmod_two_mul_add]
  norm_num [Pos.mk.injEq]

theorem parent_child_bl (n x y : Int) :
    toast._parent ⟨n + 1, 2 * x, 2 * y + 1⟩ = (⟨n, x, y⟩, 0, 1) := by
  simp only [toast._parent, fdiv_two_mul, fmod_two_mul, fdiv_two_mul_add, fmod_two_mul_add]
  norm_num [Pos.mk.injEq]

theorem parent_child_br (n x y : Int) :
    toast._parent ⟨n + 1, 2 * x + 1, 2 * y + 1⟩ = (⟨n, x, y⟩, 1, 1) := by
  simp only [toast._parent, fdiv_two_mul, fmod_two_mul, fdiv_two_mul_add, fmod_two_mul_add]
  norm_num [Pos.mk.injEq]

theorem pcAux_one {C : Type} (mid : C → C → C) (t : Tile C) :
    toast.pcAux mid true (fun _ => true) 1 t = [t] := by
  rw [pcAux_succ]
  simp [toast.pcAux, toast._div4]

theorem trickle_register (merge : Option (Img → Img)) (depth top : Int) (im : Option Img)
    (node parent : Pos) (qx qy : Int) (c0 : CornerDict) (P : ParentsMap)
    (hpar : toast._parent node = (parent, qx, qy))
    (htop : ¬ node.n = top) (hm : ¬ (merge.isNone ∧ node.n > 1))
    (hc0 : (alGet P parent).getD [] = c0)
    (hlen : (alSet c0 (qx, qy) im).length < 4) :
    (toast._trickle_up merge depth top im node P).2 =
      (alSet P parent (alSet c0 (qx, qy) im),
        decide ((toast.nparent P : Int) ≤ 4 * max depth 1)) := by
  have e1 : (toast._parent node).1 = parent := by rw [hpar]
  have e2 : (toast._parent node).2.1 = qx := by rw [hpar]
  have e3 : (toast._parent node).2.2 = qy := by rw [hpar]
  rw [trickle_eq_incomplete merge depth top im node P htop hm
    (by rw [e1, e2, e3, hc0]; exact hlen)]
  rw [e1, e2, e3, hc0]

theorem trickle_register_complete_state (merge : Option (Img → Img)) (depth top : Int)
    (im : Option Img) (node parent : Pos) (qx qy : Int) (c0 : CornerDict) (P : ParentsMap)
    (ul ur bl br : Option Img)
    (hpar : toast._parent node = (parent, qx, qy))
    (htop : ¬ node.n = top) (hm : ¬ (merge.isNone ∧ node.n > 1))
    (hc0 : (alGet P parent).getD [] = c0)
    (hlen : ¬ (alSet c0 (qx, qy) im).length < 4)
    (hul : alGet (alSet c0 (qx, qy) im) ((0 : Int), (0 : Int)) = some ul)
    (hur : alGet (alSet c0 (qx, qy) im) ((1 : Int), (0 : Int)) = some ur)
    (hbl : alGet (alSet c0 (qx, qy) im) ((0 : Int), (1 : Int)) = some bl)
    (hbr : alGet (alSet c0 (qx, qy) im) ((1 : Int), (1 : Int)) = some br) :
    (toast._trickle_up merge depth top im node P).2.1 =
      (toast._trickle_up merge depth top
        (if ul = none ∧ ur = none ∧ bl = none ∧ br = none then none
         else
           some ((merge.getD toast._default_merge)
             (toast.np_vstack
               (toast.np_hstack
                 (ul.getD (toast.np_zeros
                   (toast.np_shape (toast.firstSome [ul, ur, bl, br]))))
                 (ur.getD (toast.np_zeros
                   (toast.np_shape (toast.firstSome [ul, ur, bl, br])))))
               (toast.np_hstack
                 (bl.getD (toast.np_zeros
                   (toast.np_shape (toast.firstSome [ul, ur, bl, br]))))
                 (br.getD (toast.np_zeros
                   (toast.np_shape (toast.firstSome [ul, ur, bl, br]))))))))
        parent (alErase P parent)).2.1 := by
  have e1 : (toast._parent node).1 = parent := by rw [hpar]
  have e2 : (toast._parent node).2.1 = qx := by rw [hpar]
  have e3 : (toast._parent node).2.2 = qy := by rw [hpar]
  rw [trickle_eq_complete merge depth top im node P ul ur bl br htop hm
    (by rw [e1, e2, e3, hc0]; exact hlen)
    (by rw [e1, e2, e3, hc0]; exact hul)
    (by rw [e1, e2, e3, hc0]; exact hur)
    (by rw [e1, e2, e3, hc0]; exact hbl)
    (by rw [e1, e2, e3, hc0]; exact hbr)]
  dsimp only
  rw [if_neg (np_shape_ne_nil (toast.firstSome [ul, ur, bl, br])), e1]

theorem div4_shape {C : Type} (mid : C → C → C) (t : Tile C) :
    ∃ u1 u2 u3 u4 : Tile C,
      toast._div4 mid t = [u1, u2, u3, u4] ∧
      u1.pos = ⟨t.pos.n + 1, 2 * t.pos.x, 2 * t.pos.y⟩ ∧
      u2.pos = ⟨t.pos.n + 1, 2 * t.pos.x + 1, 2 * t.pos.y⟩ ∧
      u3.pos = ⟨t.pos.n + 1, 2 * t.pos.x, 2 * t.pos.y + 1⟩ ∧
      u4.pos = ⟨t.pos.n + 1, 2 * t.pos.x + 1, 2 * t.pos.y + 1⟩ :=
  ⟨_, _, _, _, rfl, rfl, rfl, rfl, rfl⟩

theorem run_merge_subtree {C : Type} (mid : C → C → C) (resolve : Tile C → Option Img)
    (f : Img → Img) (depth top : Int) :
    ∀ (k : Nat) (t : Tile C) (P : ParentsMap),
      1 ≤ t.pos.n → t.pos.n + (k : Int) = max depth 1 →
      (∀ e ∈ P, e.1.n < t.pos.n) →
      ((toast.nparent P : Int) + 3 * (k : Int) + 1 ≤ 4 * max depth 1) →
      (if t.pos.n < top ∧ top ≤ max depth 1
       then (toast.runTiles resolve (some f) depth top false
          (toast.pcAux mid true (fun _ => true) (k + 1) t) P).2 = (P, true)
       else ∃ im : Option Img,
         (toast.runTiles resolve (some f) depth top false
            (toast.pcAux mid true (fun _ => true) (k + 1) t) P).2 =
          ((toast._trickle_up (some f) depth top im t.pos P).2.1, true)) := by
  intro k
  induction k with
  | zero =>
    intro t P h1 hk hkeys hbud
    push_cast at hk hbud
    rw [pcAux_one]
    have hrun : toast.runTiles resolve (some f) depth top false [t] P =
        (((toast._trickle_up (some f) depth top (resolve t) t.pos P).1.filter
            (fun pr => pr.2.isSome)) ++ [],
          (toast._trickle_up (some f) depth top (resolve t) t.pos P).2.1,
          (toast._trickle_up (some f) depth top (resolve t) t.pos P).2.2 && true) := by
      rw [runTiles_cons, if_neg (by simp), if_pos (by simp)]
      rfl
    rw [if_neg (by omega)]
    refine ⟨resolve t, ?_⟩
    rw [hrun]
    dsimp only
    rw [trickle_ok (some f) depth top (resolve t) t.pos P (by omega)]
    rfl
  | succ k ih =>
    intro t P h1 hk hkeys hbud
    push_cast at hk hbud
    obtain ⟨u1, u2, u3, u4, hd4, hp1, hp2, hp3, hp4⟩ := div4_shape mid t
    have hpc : toast.pcAux mid true (fun _ => true) (k + 1 + 1) t =
        toast.pcAux mid true (fun _ => true) (k + 1) u1 ++
          (toast.pcAux mid true (fun _ => true) (k + 1) u2 ++
            (toast.pcAux mid true (fun _ => true) (k + 1) u3 ++
              toast.pcAux mid true (fun _ => true) (k + 1) u4)) := by
      rw [pcAux_succ, if_neg (by simp), hd4, if_neg (by simp)]
      simp only [List.flatMap_cons, List.flatMap_nil, List.append_nil]
    rw [hpc, runTiles_append, runTiles_append, runTiles_append]
    have hchildA : ∀ (u : Tile C) (P' : ParentsMap), u.pos.n = t.pos.n + 1 →
        (∀ e ∈ P', e.1.n < t.pos.n + 1) →
        ((toast.nparent P' : Int) + 3 * (k : Int) + 1 ≤ 4 * max depth 1) →
        (if t.pos.n + 1 < top ∧ top ≤ max depth 1
         then (toast.runTiles resolve (some f) depth top false
            (toast.pcAux mid true (fun _ => true) (k + 1) u) P').2 = (P', true)
         else ∃ im : Option Img,
           (toast.runTiles resolve (some f) depth top false
              (toast.pcAux mid true (fun _ => true) (k + 1) u) P').2 =
            ((toast._trickle_up (some f) depth top im u.pos P').2.1, true)) := by
      intro u P' hu hkeys' hbud'
      have := ih u P' (by omega) (by rw [hu]; push_cast; omega)
        (by rw [hu]; exact hkeys') (by push_cast; omega)
      rwa [hu] at this
    by_cases htp : t.pos.n < top ∧ top ≤ max depth 1
    · rw [if_pos htp]
      have hstate : ∀ (u : Tile C) (P' : ParentsMap), u.pos.n = t.pos.n + 1 →
          (∀ e ∈ P', e.1.n < t.pos.n + 1) →
          ((toast.nparent P' : Int) + 3 * (k : Int) + 1 ≤ 4 * max depth 1) →
          (toast.runTiles resolve (some f) depth top false
            (toast.pcAux mid true (fun _ => true) (k + 1) u) P').2 = (P', true) := by
        intro u P' hu hkeys' hbud'
        have hA := hchildA u P' hu hkeys' hbud'
        by_cases hct : t.pos.n + 1 < top ∧ top ≤ max depth 1
        · rwa [if_pos hct] at hA
        · rw [if_neg hct] at hA
          obtain ⟨im, him⟩ := hA
          have hteq : u.pos.n = top := by omega
          rw [trickle_eq_top _ _ _ _ _ _ hteq] at him
          exact him
      have hkeys1 : ∀ e ∈ P, e.1.n < t.pos.n + 1 := fun e he => by
        have := hkeys e he; omega
      have hbud1 : (toast.nparent P : Int) + 3 * (k : Int) + 1 ≤ 4 * max depth 1 := by
        push_cast; omega
      have e1 := hstate u1 P (by rw [hp1]) hkeys1 hbud1
      have e1s : (toast.runTiles resolve (some f) depth top false
          (toast.pcAux mid true (fun _ => true) (k + 1) u1) P).2.1 = P := by rw [e1]
      have e1o : (toast.runTiles resolve (some f) depth top false
          (toast.pcAux mid true (fun _ => true) (k + 1) u1) P).2.2 = true := by rw [e1]
      rw [e1s, e1o]
      have e2 := hstate u2 P (by rw [hp2]) hkeys1 hbud1
      have e2s : (toast.runTiles resolve (some f) depth top false
          (toast.pcAux mid true (fun _ => true) (k + 1) u2) P).2.1 = P := by rw [e2]
      have e2o : (toast.runTiles resolve (some f) depth top false
          (toast.pcAux mid true (fun _ => true) (k + 1) u2) P).2.2 = true := by rw [e2]
      rw [e2s, e2o]
      have e3 := hstate u3 P (by rw [hp3]) hkeys1 hbud1
      have e3s : (toast.runTiles resolve (some f) depth top false
          (toast.pcAux mid true (fun _ => true) (k + 1) u3) P).2.1 = P := by rw [e3]
      have e3o : (toast.runTiles resolve (some f) depth top false
          (toast.pcAux mid true (fun _ => true) (k + 1) u3) P).2.2 = true := by rw [e3]
      rw [e3s, e3o]
      have e4 := hstate u4 P (by rw [hp4]) hkeys1 hbud1
      have e4s : (toast.runTiles resolve (some f) depth top false
          (toast.pcAux mid true (fun _ => true) (k + 1) u4) P).2.1 = P := by rw [e4]
      have e4o : (toast.runTiles resolve (some f) depth top false
          (toast.pcAux mid true (fun _ => true) (k + 1) u4) P).2.2 = true := by rw [e4]
      rw [e4s, e4o]
      rfl
    · rw [if_neg htp]
      have hchild : ∀ (u : Tile C) (P' : ParentsMap), u.pos.n = t.pos.n + 1 →
          (∀ e ∈ P', e.1.n < t.pos.n + 1) →
          ((toast.nparent P' : Int) + 3 * (k : Int) + 1 ≤ 4 * max depth 1) →
          ∃ im : Option Img,
            (toast.runTiles resolve (some f) depth top false
                (toast.pcAux mid true (fun _ => true) (k + 1) u) P').2 =
              ((toast._trickle_up (some f) depth top im u.pos P').2.1, true) := by
        intro u P' hu hkeys' hbud'
        have hA := hchildA u P' hu hkeys' hbud'
        rwa [if_neg (by omega)] at hA
      have hntop : ¬ (t.pos.n + 1 = top) := by omega
      have hnm : ¬ ((some f : Option (Img → Img)).isNone ∧ (t.pos.n + 1 : Int) > 1) := by
        simp
      have htpos : ∀ e ∈ P, ¬ e.1 = t.pos := by
        intro e he hc
        have := hkeys e he
        rw [hc] at this
        omega
      have hget0 : alGet P t.pos = none := al_get_none_of P t.pos htpos
      have hkeys1 : ∀ e ∈ P, e.1.n < t.pos.n + 1 := fun e he => by
        have := hkeys e he; omega
      -- chunk 1
      obtain ⟨i1, hE1⟩ := hchild u1 P (by rw [hp1]) hkeys1 (by push_cast; omega)
      have hS1 : (toast._trickle_up (some f) depth top i1 u1.pos P).2.1 =
          alSet P t.pos (alSet [] ((0 : Int), (0 : Int)) i1) := by
        have := trickle_register (some f) depth top i1 u1.pos t.pos 0 0 [] P
          (by rw [hp1]; exact parent_child_tl t.pos.n t.pos.x t.pos.y)
          (by rw [hp1]; exact hntop) (by rw [hp1]; exact hnm)
          (by rw [hget0]; rfl) (Nat.lt_of_sub_eq_succ rfl)
        rw [this]
      have e1s : (toast.runTiles resolve (some f) depth top false
          (toast.pcAux mid true (fun _ => true) (k + 1) u1) P).2.1 =
          alSet P t.pos (alSet [] ((0 : Int), (0 : Int)) i1) := by
        rw [hE1, hS1]
      have e1o : (toast.runTiles resolve (some f) depth top false
          (toast.pcAux mid true (fun _ => true) (k + 1) u1) P).2.2 = true := by rw [hE1]
      rw [e1s, e1o]
      -- state and bookkeeping after chunk 1
      have hkeysP1 : ∀ e ∈ alSet P t.pos (alSet [] ((0 : Int), (0 : Int)) i1),
          e.1.n < t.pos.n + 1 := by
        intro e he
        rcases al_mem_set P t.pos _ e he with h | h
        · have := hkeys e h; omega
        · rw [h]; omega
      have hnpP1 : toast.nparent (alSet P t.pos (alSet [] ((0 : Int), (0 : Int)) i1)) =
          toast.nparent P + 1 := by
        have := nparent_set_get P t.pos (alSet [] ((0 : Int), (0 : Int)) i1)
        rw [hget0] at this
        simpa [alSet] using this
      have hgetP1 : alGet (alSet P t.pos (alSet [] ((0 : Int), (0 : Int)) i1)) t.pos =
          some (alSet [] ((0 : Int), (0 : Int)) i1) := al_get_set_self _ _ _
      -- chunk 2
      obtain ⟨i2, hE2⟩ := hchild u2 (alSet P t.pos (alSet [] ((0 : Int), (0 : Int)) i1))
        (by rw [hp2]) hkeysP1 (by push_cast; omega)
      have hS2 : (toast._trickle_up (some f) depth top i2 u2.pos
          (alSet P t.pos (alSet [] ((0 : Int), (0 : Int)) i1))).2.1 =
          alSet (alSet P t.pos (alSet [] ((0 : Int), (0 : Int)) i1)) t.pos
            (alSet (alSet [] ((0 : Int), (0 : Int)) i1) ((1 : Int), (0 : Int)) i2) := by
        have := trickle_register (some f) depth top i2 u2.pos t.pos 1 0
          (alSet [] ((0 : Int), (0 : Int)) i1)
          (alSet P t.pos (alSet [] ((0 : Int), (0 : Int)) i1))
          (by rw [hp2]; exact parent_child_tr t.pos.n t.pos.x t.pos.y)
          (by rw [hp2]; exact hntop) (by rw [hp2]; exact hnm)
          (by rw [hgetP1]; rfl) (Nat.lt_of_sub_eq_succ rfl)
        rw [this]
      have e2s : (toast.runTiles resolve (some f) depth top false
          (toast.pcAux mid true (fun _ => true) (k + 1) u2)
          (alSet P t.pos (alSet [] ((0 : Int), (0 : Int)) i1))).2.1 =
          alSet (alSet P t.pos (alSet [] ((0 : Int), (0 : Int)) i1)) t.pos
            (alSet (alSet [] ((0 : Int), (0 : Int)) i1) ((1 : Int), (0 : Int)) i2) := by
        rw [hE2, hS2]
      have e2o : (toast.runTiles resolve (some f) depth top false
          (toast.pcAux mid true (fun _ => true) (k + 1) u2)
          (alSet P t.pos (alSet [] ((0 : Int), (0 : Int)) i1))).2.2 = true := by rw [hE2]
      rw [e2s, e2o]
      -- state and bookkeeping after chunk 2
      have hkeysP2 : ∀ e ∈ alSet (alSet P t.pos (alSet [] ((0 : Int), (0 : Int)) i1)) t.pos
          (alSet (alSet [] ((0 : Int), (0 : Int)) i1) ((1 : Int), (0 : Int)) i2),
          e.1.n < t.pos.n + 1 := by
        intro e he
        rcases al_mem_set _ t.pos _ e he with h | h
        · exact hkeysP1 e h
        · rw [h]; omega
      have hnpP2 : toast.nparent (alSet (alSet P t.pos (alSet [] ((0 : Int), (0 : Int)) i1))
          t.pos (alSet (alSet [] ((0 : Int), (0 : Int)) i1) ((1 : Int), (0 : Int)) i2)) =
          toast.nparent P + 2 := by
        have h := nparent_set_get (alSet P t.pos (alSet [] ((0 : Int), (0 : Int)) i1)) t.pos
          (alSet (alSet [] ((0 : Int), (0 : Int)) i1) ((1 : Int), (0 : Int)) i2)
        rw [hgetP1] at h
        simp only [Option.getD_some] at h
        have hl1 : (alSet ([] : CornerDict) ((0 : Int), (0 : Int)) i1).length = 1 := rfl
        have hl2 : (alSet (alSet ([] : CornerDict) ((0 : Int), (0 : Int)) i1)
            ((1 : Int), (0 : Int)) i2).length = 2 := rfl
        omega
      have hgetP2 : alGet (alSet (alSet P t.pos (alSet [] ((0 : Int), (0 : Int)) i1)) t.pos
          (alSet (alSet [] ((0 : Int), (0 : Int)) i1) ((1 : Int), (0 : Int)) i2)) t.pos =
          some (alSet (alSet [] ((0 : Int), (0 : Int)) i1) ((1 : Int), (0 : Int)) i2) :=
        al_get_set_self _ _ _
      -- chunk 3
      obtain ⟨i3, hE3⟩ := hchild u3
        (alSet (alSet P t.pos (alSet [] ((0 : Int), (0 : Int)) i1)) t.pos
          (alSet (alSet [] ((0 : Int), (0 : Int)) i1) ((1 : Int), (0 : Int)) i2))
        (by rw [hp3]) hkeysP2 (by push_cast; omega)
      have hS3 : (toast._trickle_up (some f) depth top i3 u3.pos
          (alSet (alSet P t.pos (alSet [] ((0 : Int), (0 : Int)) i1)) t.pos
            (alSet (alSet [] ((0 : Int), (0 : Int)) i1) ((1 : Int), (0 : Int)) i2))).2.1 =
          alSet (alSet (alSet P t.pos (alSet [] ((0 : Int), (0 : Int)) i1)) t.pos
              (alSet (alSet [] ((0 : Int), (0 : Int)) i1) ((1 : Int), (0 : Int)) i2)) t.pos
            (alSet (alSet (alSet [] ((0 : Int), (0 : Int)) i1) ((1 : Int), (0 : Int)) i2)
              ((0 : Int), (1 : Int)) i3) := by
        have := trickle_register (some f) depth top i3 u3.pos t.pos 0 1
          (alSet (alSet [] ((0 : Int), (0 : Int)) i1) ((1 : Int), (0 : Int)) i2)
          (alSet (alSet P t.pos (alSet [] ((0 : Int), (0 : Int)) i1)) t.pos
            (alSet (alSet [] ((0 : Int), (0 : Int)) i1) ((1 : Int), (0 : Int)) i2))
          (by rw [hp3]; exact parent_child_bl t.pos.n t.pos.x t.pos.y)
          (by rw [hp3]; exact hntop) (by rw [hp3]; exact hnm)
          (by rw [hgetP2]; rfl) (Nat.lt_of_sub_eq_succ rfl)
        rw [this]
      have e3s : (toast.runTiles resolve (some f) depth top false
          (toast.pcAux mid true (fun _ => true) (k + 1) u3)
          (alSet (alSet P t.pos (alSet [] ((0 : Int), (0 : Int)) i1)) t.pos
            (alSet (alSet [] ((0 : Int), (0 : Int)) i1) ((1 : Int), (0 : Int)) i2))).2.1 =
          alSet (alSet (alSet P t.pos (alSet [] ((0 : Int), (0 : Int)) i1)) t.pos
              (alSet (alSet [] ((0 : Int), (0 : Int)) i1) ((1 : Int), (0 : Int)) i2)) t.pos
            (alSet (alSet (alSet [] ((0 : Int), (0 : Int)) i1) ((1 : Int), (0 : Int)) i2)
              ((0 : Int), (1 : Int)) i3) := by
        rw [hE3, hS3]
      have e3o : (toast.runTiles resolve (some f) depth top false
          (toast.pcAux mid true (fun _ => true) (k + 1) u3)
          (alSet (alSet P t.pos (alSet [] ((0 : Int), (0 : Int)) i1)) t.pos
            (alSet (alSet [] ((0 : Int), (0 : Int)) i1) ((1 : Int), (0 : Int)) i2))).2.2 =
          true := by rw [hE3]
      rw [e3s, e3o]
      -- state and bookkeeping after chunk 3
      have hkeysP3 : ∀ e ∈ alSet (alSet (alSet P t.pos (alSet [] ((0 : Int), (0 : Int)) i1))
            t.pos (alSet (alSet [] ((0 : Int), (0 : Int)) i1) ((1 : Int), (0 : Int)) i2))
          t.pos (alSet (alSet (alSet [] ((0 : Int), (0 : Int)) i1) ((1 : Int), (0 : Int)) i2)
            ((0 : Int), (1 : Int)) i3),
          e.1.n < t.pos.n + 1 := by
        intro e he
        rcases al_mem_set _ t.pos _ e he with h | h
        · exact hkeysP2 e h
        · rw [h]; omega
      have hnpP3 : toast.nparent (alSet (alSet (alSet P t.pos
            (alSet [] ((0 : Int), (0 : Int)) i1)) t.pos
            (alSet (alSet [] ((0 : Int), (0 : Int)) i1) ((1 : Int), (0 : Int)) i2)) t.pos
          (alSet (alSet (alSet [] ((0 : Int), (0 : Int)) i1) ((1 : Int), (0 : Int)) i2)
            ((0 : Int), (1 : Int)) i3)) = toast.nparent P + 3 := by
        have h := nparent_set_get (alSet (alSet P t.pos (alSet [] ((0 : Int), (0 : Int)) i1))
            t.pos (alSet (alSet [] ((0 : Int), (0 : Int)) i1) ((1 : Int), (0 : Int)) i2))
          t.pos
          (alSet (alSet (alSet [] ((0 : Int), (0 : Int)) i1) ((1 : Int), (0 : Int)) i2)
            ((0 : Int), (1 : Int)) i3)
        rw [hgetP2] at h
        simp only [Option.getD_some] at h
        have hl2 : (alSet (alSet ([] : CornerDict) ((0 : Int), (0 : Int)) i1)
            ((1 : Int), (0 : Int)) i2).length = 2 := rfl
        have hl3 : (alSet (alSet (alSet ([] : CornerDict) ((0 : Int), (0 : Int)) i1)
            ((1 : Int), (0 : Int)) i2) ((0 : Int), (1 : Int)) i3).length = 3 := rfl
        omega
      have hgetP3 : alGet (alSet (alSet (alSet P t.pos (alSet [] ((0 : Int), (0 : Int)) i1))
            t.pos (alSet (alSet [] ((0 : Int), (0 : Int)) i1) ((1 : Int), (0 : Int)) i2))
          t.pos (alSet (alSet (alSet [] ((0 : Int), (0 : Int)) i1) ((1 : Int), (0 : Int)) i2)
            ((0 : Int), (1 : Int)) i3)) t.pos =
          some (alSet (alSet (alSet [] ((0 : Int), (0 : Int)) i1) ((1 : Int), (0 : Int)) i2)
            ((0 : Int), (1 : Int)) i3) :=
        al_get_set_self _ _ _
      -- chunk 4: the completing registration
      obtain ⟨i4, hE4⟩ := hchild u4
        (alSet (alSet (alSet P t.pos (alSet [] ((0 : Int), (0 : Int)) i1)) t.pos
            (alSet (alSet [] ((0 : Int), (0 : Int)) i1) ((1 : Int), (0 : Int)) i2)) t.pos
          (alSet (alSet (alSet [] ((0 : Int), (0 : Int)) i1) ((1 : Int), (0 : Int)) i2)
            ((0 : Int), (1 : Int)) i3))
        (by rw [hp4]) hkeysP3 (by push_cast; omega)
      have h4 := trickle_register_complete_state (some f) depth top i4 u4.pos t.pos 1 1
        (alSet (alSet (alSet [] ((0 : Int), (0 : Int)) i1) ((1 : Int), (0 : Int)) i2)
          ((0 : Int), (1 : Int)) i3)
        (alSet (alSet (alSet P t.pos (alSet [] ((0 : Int), (0 : Int)) i1)) t.pos
            (alSet (alSet [] ((0 : Int), (0 : Int)) i1) ((1 : Int), (0 : Int)) i2)) t.pos
          (alSet (alSet (alSet [] ((0 : Int), (0 : Int)) i1) ((1 : Int), (0 : Int)) i2)
            ((0 : Int), (1 : Int)) i3))
        i1 i2 i3 i4
        (by rw [hp4]; exact parent_child_br t.pos.n t.pos.x t.pos.y)
        (by rw [hp4]; exact hntop) (by rw [hp4]; exact hnm)
        (by rw [hgetP3]; rfl) (fun h => Nat.lt_irrefl 4 h)
        rfl rfl rfl rfl
      have herase : alErase (alSet (alSet (alSet P t.pos (alSet [] ((0 : Int), (0 : Int)) i1))
            t.pos (alSet (alSet [] ((0 : Int), (0 : Int)) i1) ((1 : Int), (0 : Int)) i2))
          t.pos (alSet (alSet (alSet [] ((0 : Int), (0 : Int)) i1) ((1 : Int), (0 : Int)) i2)
            ((0 : Int), (1 : Int)) i3)) t.pos = P := by
        rw [al_erase_set, al_erase_set, al_erase_set]
        exact al_erase_of_none P t.pos hget0
      rw [herase] at h4
      have e4s : (toast.runTiles resolve (some f) depth top false
          (toast.pcAux mid true (fun _ => true) (k + 1) u4)
          (alSet (alSet (alSet P t.pos (alSet [] ((0 : Int), (0 : Int)) i1)) t.pos
              (alSet (alSet [] ((0 : Int), (0 : Int)) i1) ((1 : Int), (0 : Int)) i2)) t.pos
            (alSet (alSet (alSet [] ((0 : Int), (0 : Int)) i1) ((1 : Int), (0 : Int)) i2)
              ((0 : Int), (1 : Int)) i3))).2.1 =
          (toast._trickle_up (some f) depth top i4 u4.pos
            (alSet (alSet (alSet P t.pos (alSet [] ((0 : Int), (0 : Int)) i1)) t.pos
                (alSet (alSet [] ((0 : Int), (0 : Int)) i1) ((1 : Int), (0 : Int)) i2)) t.pos
              (alSet (alSet (alSet [] ((0 : Int), (0 : Int)) i1) ((1 : Int), (0 : Int)) i2)
                ((0 : Int), (1 : Int)) i3))).2.1 := by
        rw [hE4]
      have e4o : (toast.runTiles resolve (some f) depth top false
          (toast.pcAux mid true (fun _ => true) (k + 1) u4)
          (alSet (alSet (alSet P t.pos (alSet [] ((0 : Int), (0 : Int)) i1)) t.pos
              (alSet (alSet [] ((0 : Int), (0 : Int)) i1) ((1 : Int), (0 : Int)) i2)) t.pos
            (alSet (alSet (alSet [] ((0 : Int), (0 : Int)) i1) ((1 : Int), (0 : Int)) i2)
              ((0 : Int), (1 : Int)) i3))).2.2 = true := by rw [hE4]
      rw [e4s, e4o, h4]
      exact ⟨_, rfl⟩

theorem run_blo_ok {C : Type} (resolve : Tile C → Option Img) (merge : Option (Img → Img))
    (depth top : Int) : ∀ (ts : List (Tile C)) (P : ParentsMap),
    (toast.runTiles resolve merge depth top true ts P).2.2 = true := by
  intro ts
  induction ts with
  | nil => intro P; rfl
  | cons t rest ih =>
    intro P
    rw [runTiles_cons]
    by_cases h : resolve t = none
    · rw [if_pos ⟨h, rfl⟩]
      exact ih P
    · rw [if_neg (by simp [h]), if_neg (by simp)]
      exact ih P

theorem al_mem_erase {α β : Type} [DecidableEq α] (l : List (α × β)) (k : α) :
    ∀ e ∈ alErase l k, e ∈ l := by
  induction l with
  | nil => intro e he; exact he
  | cons a t ih =>
    intro e he
    by_cases ha : a.1 = k
    · rw [alErase, if_pos ha] at he
      exact List.mem_cons_of_mem a (ih e he)
    · rw [alErase, if_neg ha] at he
      rcases List.mem_cons.mp he with h | h
      · exact List.mem_cons.mpr (Or.inl h)
      · exact List.mem_cons_of_mem a (ih e h)

theorem trickleAux_keys (merge : Option (Img → Img)) (depth top : Int) :
    ∀ (fuel : Nat) (im : Option Img) (node : Pos) (parents : ParentsMap)
      (e : Pos × CornerDict),
      e ∈ (toast.trickleAux merge depth top fuel im node parents).2.1 →
      e ∈ parents ∨ e.1.n < node.n := by
  intro fuel
  induction fuel with
  | zero =>
    intro im node parents e he
    exact Or.inl he
  | succ fuel ih =>
    intro im node parents e he
    simp only [toast.trickleAux] at he
    have hpn : (toast._parent node).1.n = node.n - 1 := rfl
    by_cases h1 : node.n = top
    · rw [if_pos h1] at he
      exact Or.inl he
    rw [if_neg h1] at he
    by_cases h2 : merge.isNone ∧ node.n > 1
    · rw [if_pos h2] at he
      exact Or.inl he
    rw [if_neg h2] at he
    by_cases h4 : (alSet ((alGet parents (toast._parent node).1).getD [])
        ((toast._parent node).2.1, (toast._parent node).2.2) im).length < 4
    · rw [if_pos h4] at he
      dsimp only at he
      rcases al_mem_set parents (toast._parent node).1 _ e he with h | h
      · exact Or.inl h
      · right; rw [h, hpn]; omega
    rw [if_neg h4] at he
    rw [al_erase_set] at he
    cases hA : alGet (alSet ((alGet parents (toast._parent node).1).getD [])
        ((toast._parent node).2.1, (toast._parent node).2.2) im) ((0 : Int), (0 : Int)) with
    | none =>
      rw [hA] at he
      dsimp only at he
      exact Or.inl (al_mem_erase parents (toast._parent node).1 e he)
    | some ul =>
    rw [hA] at he
    cases hB2 : alGet (alSet ((alGet parents (toast._parent node).1).getD [])
        ((toast._parent node).2.1, (toast._parent node).2.2) im) ((1 : Int), (0 : Int)) with
    | none =>
      rw [hB2] at he
      dsimp only at he
      exact Or.inl (al_mem_erase parents (toast._parent node).1 e he)
    | some ur =>
    rw [hB2] at he
    cases hC : alGet (alSet ((alGet parents (toast._parent node).1).getD [])
        ((toast._parent node).2.1, (toast._parent node).2.2) im) ((0 : Int), (1 : Int)) with
    | none =>
      rw [hC] at he
      dsimp only at he
      exact Or.inl (al_mem_erase parents (toast._parent node).1 e he)
    | some bl =>
    rw [hC] at he
    cases hD : alGet (alSet ((alGet parents (toast._parent node).1).getD [])
        ((toast._parent node).2.1, (toast._parent node).2.2) im) ((1 : Int), (1 : Int)) with
    | none =>
      rw [hD] at he
      dsimp only at he
      exact Or.inl (al_mem_erase parents (toast._parent node).1 e he)
    | some br =>
    rw [hD] at he
    dsimp only at he
    rcases ih _ (toast._parent node).1 (alErase parents (toast._parent node).1) e he with
      h | h
    · exact Or.inl (al_mem_erase parents (toast._parent node).1 e h)
    · right; rw [hpn] at h; omega

theorem trickle_keys (merge : Option (Img → Img)) (depth top : Int) (im : Option Img)
    (node : Pos) (parents : ParentsMap) :
    ∀ e ∈ (toast._trickle_up merge depth top im node parents).2.1,
      e ∈ parents ∨ e.1.n < node.n :=
  fun e he => trickleAux_keys merge depth top _ im node parents e he

theorem run_nomerge_chunk {C : Type} (mid : C → C → C) (resolve : Tile C → Option Img)
    (depth top : Int) (k : Nat) (t : Tile C) (P : ParentsMap)
    (h1t : 1 ≤ t.pos.n) (hB : (toast.nparent P : Int) ≤ 4 * max depth 1) :
    (toast.runTiles resolve none depth top false
        (toast.pcAux mid false (fun _ => true) (k + 1) t) P).2 =
      ((toast._trickle_up none depth top (resolve t) t.pos P).2.1, true) := by
  rw [pcAux_succ, if_neg (by simp), if_pos (by simp)]
  rw [runTiles_append]
  have hdeepcond : ∀ u ∈ (toast._div4 mid t).flatMap
      (toast.pcAux mid false (fun _ => true) k), 2 ≤ u.pos.n := by
    intro u hu
    rw [List.mem_flatMap] at hu
    obtain ⟨c, hc, hu⟩ := hu
    have h1 := div4_depth mid t c hc
    have h2 := pcAux_depth_ge mid false (fun _ => true) k c u hu
    omega
  have hdeep := run_nomerge_untouched resolve depth top
    ((toast._div4 mid t).flatMap (toast.pcAux mid false (fun _ => true) k)) P hdeepcond hB
  have hds : (toast.runTiles resolve none depth top false
      ((toast._div4 mid t).flatMap (toast.pcAux mid false (fun _ => true) k)) P).2.1 = P := by
    rw [hdeep]
  have hdo : (toast.runTiles resolve none depth top false
      ((toast._div4 mid t).flatMap (toast.pcAux mid false (fun _ => true) k)) P).2.2 =
      true := by
    rw [hdeep]
  rw [hds, hdo]
  have hlast : toast.runTiles resolve none depth top false [t] P =
      (((toast._trickle_up none depth top (resolve t) t.pos P).1.filter
          (fun pr => pr.2.isSome)) ++ [],
        (toast._trickle_up none depth top (resolve t) t.pos P).2.1,
        (toast._trickle_up none depth top (resolve t) t.pos P).2.2 && true) := by
    rw [runTiles_cons, if_neg (by simp), if_pos (by simp)]
    rfl
  rw [hlast]
  dsimp only
  rw [trickle_ok none depth top (resolve t) t.pos P hB]
  rfl

theorem run_nomerge_all {C : Type} (mid : C → C → C) (resolve : Tile C → Option Img)
    (depth top : Int) (l1 l2 l3 l4 : C × C × C × C) :
    (toast.runTiles resolve none depth top false
      (toast.iter_corners mid l1 l2 l3 l4 (max depth 1) false (fun _ => true)) []).2.2 =
      true := by
  have hD : (1 : Int) ≤ max depth 1 := le_max_right depth 1
  have h0 : toast.nparent ([] : ParentsMap) = 0 := rfl
  have hfuel : (max depth 1 + 1 - 1).toNat = (max depth 1 - 1).toNat + 1 := by omega
  simp only [toast.iter_corners, List.flatMap_cons, List.flatMap_nil, List.append_nil,
    toast._postfix_corner]
  rw [hfuel]
  rw [runTiles_append, runTiles_append, runTiles_append]
  have hc1 := run_nomerge_chunk mid resolve depth top ((max depth 1 - 1).toNat)
    (⟨⟨1, 0, 0⟩, l1, true⟩ : Tile C) [] (le_refl 1) (by omega)
  dsimp only at hc1
  have e1s : (toast.runTiles resolve none depth top false
      (toast.pcAux mid false (fun _ => true) ((max depth 1 - 1).toNat + 1)
        ⟨⟨1, 0, 0⟩, l1, true⟩) []).2.1 =
      (toast._trickle_up none depth top (resolve ⟨⟨1, 0, 0⟩, l1, true⟩) ⟨1, 0, 0⟩ []).2.1 := by
    rw [hc1]
  have e1o : (toast.runTiles resolve none depth top false
      (toast.pcAux mid false (fun _ => true) ((max depth 1 - 1).toNat + 1)
        ⟨⟨1, 0, 0⟩, l1, true⟩) []).2.2 = true := by
    rw [hc1]
  rw [e1s, e1o]
  have hg1 := trickle_growth none depth top (resolve ⟨⟨1, 0, 0⟩, l1, true⟩) ⟨1, 0, 0⟩ []
  have hc2 := run_nomerge_chunk mid resolve depth top ((max depth 1 - 1).toNat)
    (⟨⟨1, 1, 0⟩, l2, false⟩ : Tile C)
    ((toast._trickle_up none depth top (resolve ⟨⟨1, 0, 0⟩, l1, true⟩) ⟨1, 0, 0⟩ []).2.1)
    (le_refl 1) (by omega)
  dsimp only at hc2
  have e2s : (toast.runTiles resolve none depth top false
      (toast.pcAux mid false (fun _ => true) ((max depth 1 - 1).toNat + 1)
        ⟨⟨1, 1, 0⟩, l2, false⟩)
      ((toast._trickle_up none depth top (resolve ⟨⟨1, 0, 0⟩, l1, true⟩)
        ⟨1, 0, 0⟩ []).2.1)).2.1 =
      (toast._trickle_up none depth top (resolve ⟨⟨1, 1, 0⟩, l2, false⟩) ⟨1, 1, 0⟩
        ((toast._trickle_up none depth top (resolve ⟨⟨1, 0, 0⟩, l1, true⟩)
          ⟨1, 0, 0⟩ []).2.1)).2.1 := by
    rw [hc2]
  have e2o : (toast.runTiles resolve none depth top false
      (toast.pcAux mid false (fun _ => true) ((max depth 1 - 1).toNat + 1)
        ⟨⟨1, 1, 0⟩, l2, false⟩)
      ((toast._trickle_up none depth top (resolve ⟨⟨1, 0, 0⟩, l1, true⟩)
        ⟨1, 0, 0⟩ []).2.1)).2.2 = true := by
    rw [hc2]
  rw [e2s, e2o]
  have hg2 := trickle_growth none depth top (resolve ⟨⟨1, 1, 0⟩, l2, false⟩) ⟨1, 1, 0⟩
    ((toast._trickle_up none depth top (resolve ⟨⟨1, 0, 0⟩, l1, true⟩) ⟨1, 0, 0⟩ []).2.1)
  have hc3 := run_nomerge_chunk mid resolve depth top ((max depth 1 - 1).toNat)
    (⟨⟨1, 1, 1⟩, l3, true⟩ : Tile C)
    ((toast._trickle_up none depth top (resolve ⟨⟨1, 1, 0⟩, l2, false⟩) ⟨1, 1, 0⟩
      ((toast._trickle_up none depth top (resolve ⟨⟨1, 0, 0⟩, l1, true⟩)
        ⟨1, 0, 0⟩ []).2.1)).2.1)
    (le_refl 1) (by omega)
  dsimp only at hc3
  have e3s : (toast.runTiles resolve none depth top false
      (toast.pcAux mid false (fun _ => true) ((max depth 1 - 1).toNat + 1)
        ⟨⟨1, 1, 1⟩, l3, true⟩)
      ((toast._trickle_up none depth top (resolve ⟨⟨1, 1, 0⟩, l2, false⟩) ⟨1, 1, 0⟩
        ((toast._trickle_up none depth top (resolve ⟨⟨1, 0, 0⟩, l1, true⟩)
          ⟨1, 0, 0⟩ []).2.1)).2.1)).2.1 =
      (toast._trickle_up none depth top (resolve ⟨⟨1, 1, 1⟩, l3, true⟩) ⟨1, 1, 1⟩
        ((toast._trickle_up none depth top (resolve ⟨⟨1, 1, 0⟩, l2, false⟩) ⟨1, 1, 0⟩
          ((toast._trickle_up none depth top (resolve ⟨⟨1, 0, 0⟩, l1, true⟩)
            ⟨1, 0, 0⟩ []).2.1)).2.1)).2.1 := by
    rw [hc3]
  have e3o : (toast.runTiles resolve none depth top false
      (toast.pcAux mid false (fun _ => true) ((max depth 1 - 1).toNat + 1)
        ⟨⟨1, 1, 1⟩, l3, true⟩)
      ((toast._trickle_up none depth top (resolve ⟨⟨1, 1, 0⟩, l2, false⟩) ⟨1, 1, 0⟩
        ((toast._trickle_up none depth top (resolve ⟨⟨1, 0, 0⟩, l1, true⟩)
          ⟨1, 0, 0⟩ []).2.1)).2.1)).2.2 = true := by
    rw [hc3]
  rw [e3s, e3o]
  have hg3 := trickle_growth none depth top (resolve ⟨⟨1, 1, 1⟩, l3, true⟩) ⟨1, 1, 1⟩
    ((toast._trickle_up none depth top (resolve ⟨⟨1, 1, 0⟩, l2, false⟩) ⟨1, 1, 0⟩
      ((toast._trickle_up none depth top (resolve ⟨⟨1, 0, 0⟩, l1, true⟩)
        ⟨1, 0, 0⟩ []).2.1)).2.1)
  have hc4 := run_nomerge_chunk mid resolve depth top ((max depth 1 - 1).toNat)
    (⟨⟨1, 0, 1⟩, l4, false⟩ : Tile C)
    ((toast._trickle_up none depth top (resolve ⟨⟨1, 1, 1⟩, l3, true⟩) ⟨1, 1, 1⟩
      ((toast._trickle_up none depth top (resolve ⟨⟨1, 1, 0⟩, l2, false⟩) ⟨1, 1, 0⟩
        ((toast._trickle_up none depth top (resolve ⟨⟨1, 0, 0⟩, l1, true⟩)
          ⟨1, 0, 0⟩ []).2.1)).2.1)).2.1)
    (le_refl 1) (by omega)
  dsimp only at hc4
  have e4o : (toast.runTiles resolve none depth top false
      (toast.pcAux mid false (fun _ => true) ((max depth 1 - 1).toNat + 1)
        ⟨⟨1, 0, 1⟩, l4, false⟩)
      ((toast._trickle_up none depth top (resolve ⟨⟨1, 1, 1⟩, l3, true⟩) ⟨1, 1, 1⟩
        ((toast._trickle_up none depth top (resolve ⟨⟨1, 1, 0⟩, l2, false⟩) ⟨1, 1, 0⟩
          ((toast._trickle_up none depth top (resolve ⟨⟨1, 0, 0⟩, l1, true⟩)
            ⟨1, 0, 0⟩ []).2.1)).2.1)).2.1)).2.2 = true := by
    rw [hc4]
  rw [e4o]
  rfl

theorem run_merge_all {C : Type} (mid : C → C → C) (resolve : Tile C → Option Img)
    (f : Img → Img) (depth top : Int) (l1 l2 l3 l4 : C × C × C × C) :
    (toast.runTiles resolve (some f) depth top false
      (toast.iter_corners mid l1 l2 l3 l4 (max depth 1) true (fun _ => true)) []).2.2 =
      true := by
  have hD : (1 : Int) ≤ max depth 1 := le_max_right depth 1
  have h0 : toast.nparent ([] : ParentsMap) = 0 := rfl
  have hfuel : (max depth 1 + 1 - 1).toNat = (max depth 1 - 1).toNat + 1 := by omega
  simp only [toast.iter_corners, List.flatMap_cons, List.flatMap_nil, List.append_nil,
    toast._postfix_corner]
  rw [hfuel]
  rw [runTiles_append, runTiles_append, runTiles_append]
  by_cases htp : (1 : Int) < top ∧ top ≤ max depth 1
  · have hr1 := run_merge_subtree mid resolve f depth top ((max depth 1 - 1).toNat)
      (⟨⟨1, 0, 0⟩, l1, true⟩ : Tile C) [] (le_refl 1) (by dsimp only; omega) (by simp)
      (by omega)
    dsimp only at hr1
    rw [if_pos htp] at hr1
    have e1s : (toast.runTiles resolve (some f) depth top false
        (toast.pcAux mid true (fun _ => true) ((max depth 1 - 1).toNat + 1)
          ⟨⟨1, 0, 0⟩, l1, true⟩) []).2.1 = [] := by rw [hr1]
    have e1o : (toast.runTiles resolve (some f) depth top false
        (toast.pcAux mid true (fun _ => true) ((max depth 1 - 1).toNat + 1)
          ⟨⟨1, 0, 0⟩, l1, true⟩) []).2.2 = true := by rw [hr1]
    rw [e1s, e1o]
    have hr2 := run_merge_subtree mid resolve f depth top ((max depth 1 - 1).toNat)
      (⟨⟨1, 1, 0⟩, l2, false⟩ : Tile C) [] (le_refl 1) (by dsimp only; omega) (by simp)
      (by omega)
    dsimp only at hr2
    rw [if_pos htp] at hr2
    have e2s : (toast.runTiles resolve (some f) depth top false
        (toast.pcAux mid true (fun _ => true) ((max depth 1 - 1).toNat + 1)
          ⟨⟨1, 1, 0⟩, l2, false⟩) []).2.1 = [] := by rw [hr2]
    have e2o : (toast.runTiles resolve (some f) depth top false
        (toast.pcAux mid true (fun _ => true) ((max depth 1 - 1).toNat + 1)
          ⟨⟨1, 1, 0⟩, l2, false⟩) []).2.2 = true := by rw [hr2]
    rw [e2s, e2o]
    have hr3 := run_merge_subtree mid resolve f depth top ((max depth 1 - 1).toNat)
      (⟨⟨1, 1, 1⟩, l3, true⟩ : Tile C) [] (le_refl 1) (by dsimp only; omega) (by simp)
      (by omega)
    dsimp only at hr3
    rw [if_pos htp] at hr3
    have e3s : (toast.runTiles resolve (some f) depth top false
        (toast.pcAux mid true (fun _ => true) ((max depth 1 - 1).toNat + 1)
          ⟨⟨1, 1, 1⟩, l3, true⟩) []).2.1 = [] := by rw [hr3]
    have e3o : (toast.runTiles resolve (some f) depth top false
        (toast.pcAux mid true (fun _ => true) ((max depth 1 - 1).toNat + 1)
          ⟨⟨1, 1, 1⟩, l3, true⟩) []).2.2 = true := by rw [hr3]
    rw [e3s, e3o]
    have hr4 := run_merge_subtree mid resolve f depth top ((max depth 1 - 1).toNat)
      (⟨⟨1, 0, 1⟩, l4, false⟩ : Tile C) [] (le_refl 1) (by dsimp only; omega) (by simp)
      (by omega)
    dsimp only at hr4
    rw [if_pos htp] at hr4
    have e4o : (toast.runTiles resolve (some f) depth top false
        (toast.pcAux mid true (fun _ => true) ((max depth 1 - 1).toNat + 1)
          ⟨⟨1, 0, 1⟩, l4, false⟩) []).2.2 = true := by rw [hr4]
    rw [e4o]
    rfl
  · have hr1 := run_merge_subtree mid resolve f depth top ((max depth 1 - 1).toNat)
      (⟨⟨1, 0, 0⟩, l1, true⟩ : Tile C) [] (le_refl 1) (by dsimp only; omega) (by simp)
      (by omega)
    dsimp only at hr1
    rw [if_neg htp] at hr1
    obtain ⟨i1, h1⟩ := hr1
    have e1s : (toast.runTiles resolve (some f) depth top false
        (toast.pcAux mid true (fun _ => true) ((max depth 1 - 1).toNat + 1)
          ⟨⟨1, 0, 0⟩, l1, true⟩) []).2.1 =
        (toast._trickle_up (some f) depth top i1 ⟨1, 0, 0⟩ []).2.1 := by rw [h1]
    have e1o : (toast.runTiles resolve (some f) depth top false
        (toast.pcAux mid true (fun _ => true) ((max depth 1 - 1).toNat + 1)
          ⟨⟨1, 0, 0⟩, l1, true⟩) []).2.2 = true := by rw [h1]
    rw [e1s, e1o]
    have hg1 := trickle_growth (some f) depth top i1 ⟨1, 0, 0⟩ []
    have hk1 : ∀ e ∈ (toast._trickle_up (some f) depth top i1 ⟨1, 0, 0⟩ []).2.1,
        e.1.n < 1 := by
      intro e he
      rcases trickle_keys (some f) depth top i1 ⟨1, 0, 0⟩ [] e he with h | h
      · exact absurd h (List.not_mem_nil e)
      · exact h
    have hr2 := run_merge_subtree mid resolve f depth top ((max depth 1 - 1).toNat)
      (⟨⟨1, 1, 0⟩, l2, false⟩ : Tile C)
      ((toast._trickle_up (some f) depth top i1 ⟨1, 0, 0⟩ []).2.1)
      (le_refl 1) (by dsimp only; omega) (fun e he => hk1 e he) (by omega)
    dsimp only at hr2
    rw [if_neg htp] at hr2
    obtain ⟨i2, h2⟩ := hr2
    have e2s : (toast.runTiles resolve (some f) depth top false
        (toast.pcAux mid true (fun _ => true) ((max depth 1 - 1).toNat + 1)
          ⟨⟨1, 1, 0⟩, l2, false⟩)
        ((toast._trickle_up (some f) depth top i1 ⟨1, 0, 0⟩ []).2.1)).2.1 =
        (toast._trickle_up (some f) depth top i2 ⟨1, 1, 0⟩
          ((toast._trickle_up (some f) depth top i1 ⟨1, 0, 0⟩ []).2.1)).2.1 := by rw [h2]
    have e2o : (toast.runTiles resolve (some f) depth top false
        (toast.pcAux mid true (fun _ => true) ((max depth 1 - 1).toNat + 1)
          ⟨⟨1, 1, 0⟩, l2, false⟩)
        ((toast._trickle_up (some f) depth top i1 ⟨1, 0, 0⟩ []).2.1)).2.2 = true := by
      rw [h2]
    rw [e2s, e2o]
    have hg2 := trickle_growth (some f) depth top i2 ⟨1, 1, 0⟩
      ((toast._trickle_up (some f) depth top i1 ⟨1, 0, 0⟩ []).2.1)
    have hk2 : ∀ e ∈ (toast._trickle_up (some f) depth top i2 ⟨1, 1, 0⟩
        ((toast._trickle_up (some f) depth top i1 ⟨1, 0, 0⟩ []).2.1)).2.1,
        e.1.n < 1 := by
      intro e he
      rcases trickle_keys (some f) depth top i2 ⟨1, 1, 0⟩
          ((toast._trickle_up (some f) depth top i1 ⟨1, 0, 0⟩ []).2.1) e he with h | h
      · exact hk1 e h
      · exact h
    have hr3 := run_merge_subtree mid resolve f depth top ((max depth 1 - 1).toNat)
      (⟨⟨1, 1, 1⟩, l3, true⟩ : Tile C)
      ((toast._trickle_up (some f) depth top i2 ⟨1, 1, 0⟩
        ((toast._trickle_up (some f) depth top i1 ⟨1, 0, 0⟩ []).2.1)).2.1)
      (le_refl 1) (by dsimp only; omega) (fun e he => hk2 e he) (by omega)
    dsimp only at hr3
    rw [if_neg htp] at hr3
    obtain ⟨i3, h3⟩ := hr3
    have e3s : (toast.runTiles resolve (some f) depth top false
        (toast.pcAux mid true (fun _ => true) ((max depth 1 - 1).toNat + 1)
          ⟨⟨1, 1, 1⟩, l3, true⟩)
        ((toast._trickle_up (some f) depth top i2 ⟨1, 1, 0⟩
          ((toast._trickle_up (some f) depth top i1 ⟨1, 0, 0⟩ []).2.1)).2.1)).2.1 =
        (toast._trickle_up (some f) depth top i3 ⟨1, 1, 1⟩
          ((toast._trickle_up (some f) depth top i2 ⟨1, 1, 0⟩
            ((toast._trickle_up (some f) depth top i1 ⟨1, 0, 0⟩ []).2.1)).2.1)).2.1 := by
      rw [h3]
    have e3o : (toast.runTiles resolve (some f) depth top false
        (toast.pcAux mid true (fun _ => true) ((max depth 1 - 1).toNat + 1)
          ⟨⟨1, 1, 1⟩, l3, true⟩)
        ((toast._trickle_up (some f) depth top i2 ⟨1, 1, 0⟩
          ((toast._trickle_up (some f) depth top i1 ⟨1, 0, 0⟩ []).2.1)).2.1)).2.2 =
        true := by rw [h3]
    rw [e3s, e3o]
    have hg3 := trickle_growth (some f) depth top i3 ⟨1, 1, 1⟩
      ((toast._trickle_up (some f) depth top i2 ⟨1, 1, 0⟩
        ((toast._trickle_up (some f) depth top i1 ⟨1, 0, 0⟩ []).2.1)).2.1)
    have hk3 : ∀ e ∈ (toast._trickle_up (some f) depth top i3 ⟨1, 1, 1⟩
        ((toast._trickle_up (some f) depth top i2 ⟨1, 1, 0⟩
          ((toast._trickle_up (some f) depth top i1 ⟨1, 0, 0⟩ []).2.1)).2.1)).2.1,
        e.1.n < 1 := by
      intro e he
      rcases trickle_keys (some f) depth top i3 ⟨1, 1, 1⟩
          ((toast._trickle_up (some f) depth top i2 ⟨1, 1, 0⟩
            ((toast._trickle_up (some f) depth top i1 ⟨1, 0, 0⟩ []).2.1)).2.1) e he with
        h | h
      · exact hk2 e h
      · exact h
    have hr4 := run_merge_subtree mid resolve f depth top ((max depth 1 - 1).toNat)
      (⟨⟨1, 0, 1⟩, l4, false⟩ : Tile C)
      ((toast._trickle_up (some f) depth top i3 ⟨1, 1, 1⟩
        ((toast._trickle_up (some f) depth top i2 ⟨1, 1, 0⟩
          ((toast._trickle_up (some f) depth top i1 ⟨1, 0, 0⟩ []).2.1)).2.1)).2.1)
      (le_refl 1) (by dsimp only; omega) (fun e he => hk3 e he) (by omega)
    dsimp only at hr4
    rw [if_neg htp] at hr4
    obtain ⟨i4, h4⟩ := hr4
    have e4o : (toast.runTiles resolve (some f) depth top false
        (toast.pcAux mid true (fun _ => true) ((max depth 1 - 1).toNat + 1)
          ⟨⟨1, 0, 1⟩, l4, false⟩)
        ((toast._trickle_up (some f) depth top i3 ⟨1, 1, 1⟩
          ((toast._trickle_up (some f) depth top i2 ⟨1, 1, 0⟩
            ((toast._trickle_up (some f) depth top i1 ⟨1, 0, 0⟩ []).2.1)).2.1)).2.1)).2.2 =
        true := by rw [h4]
    rw [e4o]
    rfl

/-- C2 (amended): with the trivial always-accepting tile filter, for every
resolver, depth, merge policy, `base_level_only` setting and `top`, every
assertion `nparent <= 4 * max(depth, 1)` checked at entry to `_trickle_up`
during the `iter_tiles` run passes (the run's assertion conjunction is
`true`).  The original claim quantified over every tile filter and is
refuted by `iter_tiles_accumulator_overflow`. -/
theorem iter_tiles_accumulator_bound {C : Type} (resolve : Tile C → Option Img)
    (depth : Int) (mp : toast.MergePolicy) (blo : Bool) (top : Int)
    (mid : C → C → C) (l1 l2 l3 l4 : C × C × C × C) :
    (toast.iter_tiles resolve depth mp blo (fun _ => true) top mid l1 l2 l3 l4).2.2 =
      true := by
  show (toast.runTiles resolve (toast.mergeOf mp) depth top blo
    (toast.iter_corners mid l1 l2 l3 l4 (max depth 1) (toast.mergeOf mp).isSome
      (fun _ => true)) []).2.2 = true
  cases blo with
  | true => exact run_blo_ok resolve (toast.mergeOf mp) depth top _ []
  | false =>
    cases toast.mergeOf mp with
    | none => exact run_nomerge_all mid resolve depth top l1 l2 l3 l4
    | some f => exact run_merge_all mid resolve f depth top l1 l2 l3 l4

/-- C2 counterexample: a tile filter that accepts every tile except the
depth-2 tiles with odd `x` and odd `y` leaves a stale three-image
accumulator entry behind for each pruned base subtree; at depth 2 the
fourth subtree's first leaf then enters `_trickle_up` with `nparent = 9 >
8 = 4 * max(depth, 1)` and the assertion fails, so the claim does not
hold for every tile filter. -/
theorem iter_tiles_accumulator_overflow :
    (toast.iter_tiles (fun _ => some [[1]]) 2 toast.MergePolicy.tru false
      (fun t => decide ¬ (t.pos.n = 2 ∧ t.pos.x % 2 = 1 ∧ t.pos.y % 2 = 1)) 0
      (fun _ _ => ()) ((), (), (), ()) ((), (), (), ()) ((), (), (), ())
      ((), (), (), ())).2.2 = false := by
  rfl

/-- C10: even with the merge policy disabled (`merge=False`) and
`base_level_only` unset, aggregation still happens at the base level:
whenever the four depth-1 base tiles resolve to images `i1 .. i4` (in
traversal order `(1,0,0)`, `(1,1,0)`, `(1,1,1)`, `(1,0,1)`), the run
emits the depth-0 root path paired with the default 2×2 block-average
merge of their mosaic — top row `i1, i2`, bottom row `i4, i3`, matching
quadrants `(0,0)`, `(1,0)`, `(0,1)`, `(1,1)` — because the
`merge is False` stop applies only at depths strictly greater than 1
and the merge application falls back to `_default_merge`. -/
theorem nomerge_base_aggregation {C : Type} (mid : C → C → C)
    (resolve : Tile C → Option Img) (depth : Int) (l1 l2 l3 l4 : C × C × C × C)
    (i1 i2 i3 i4 : Img)
    (h1 : resolve ⟨⟨1, 0, 0⟩, l1, true⟩ = some i1)
    (h2 : resolve ⟨⟨1, 1, 0⟩, l2, false⟩ = some i2)
    (h3 : resolve ⟨⟨1, 1, 1⟩, l3, true⟩ = some i3)
    (h4 : resolve ⟨⟨1, 0, 1⟩, l4, false⟩ = some i4)
    (hd : 0 ≤ depth) :
    (toast.mkPath 0 0 0,
      some (toast._default_merge
        (toast.np_vstack (toast.np_hstack i1 i2) (toast.np_hstack i4 i3)))) ∈
      (toast.iter_tiles resolve depth toast.MergePolicy.fls false (fun _ => true) 0
        mid l1 l2 l3 l4).1 := by
  show _ ∈ (toast.runTiles resolve none depth 0 false
    (toast.iter_corners mid l1 l2 l3 l4 (max depth 1) false (fun _ => true)) []).1
  have hD : (1 : Int) ≤ max depth 1 := le_max_right depth 1
  have hfuel : (max depth 1 + 1 - 1).toNat = (max depth 1 - 1).toNat + 1 := by omega
  simp only [toast.iter_corners, List.flatMap_cons, List.flatMap_nil, List.append_nil,
    toast._postfix_corner]
  rw [hfuel]
  rw [runTiles_append, runTiles_append, runTiles_append]
  have hc1 := run_nomerge_chunk mid resolve depth 0 ((max depth 1 - 1).toNat)
    (⟨⟨1, 0, 0⟩, l1, true⟩ : Tile C) [] (le_refl 1)
    (by have h0 : toast.nparent ([] : ParentsMap) = 0 := rfl; omega)
  dsimp only at hc1
  rw [h1] at hc1
  have hT1 : (toast._trickle_up none depth 0 (some i1) ⟨1, 0, 0⟩ []).2.1 =
      alSet [] (⟨0, 0, 0⟩ : Pos) (alSet [] ((0 : Int), (0 : Int)) (some i1)) := by
    have h := trickle_register none depth 0 (some i1) ⟨1, 0, 0⟩ ⟨0, 0, 0⟩ 0 0 [] []
      (by decide) (by decide) (by decide) rfl (Nat.lt_of_sub_eq_succ rfl)
    rw [h]
  have e1s : (toast.runTiles resolve none depth 0 false
      (toast.pcAux mid false (fun _ => true) ((max depth 1 - 1).toNat + 1)
        ⟨⟨1, 0, 0⟩, l1, true⟩) []).2.1 =
      alSet [] (⟨0, 0, 0⟩ : Pos) (alSet [] ((0 : Int), (0 : Int)) (some i1)) := by
    rw [hc1]
    exact hT1
  rw [e1s]
  have hc2 := run_nomerge_chunk mid resolve depth 0 ((max depth 1 - 1).toNat)
    (⟨⟨1, 1, 0⟩, l2, false⟩ : Tile C)
    (alSet [] (⟨0, 0, 0⟩ : Pos) (alSet [] ((0 : Int), (0 : Int)) (some i1)))
    (le_refl 1)
    (by have hn : toast.nparent (alSet [] (⟨0, 0, 0⟩ : Pos)
          (alSet [] ((0 : Int), (0 : Int)) (some i1))) = 1 := rfl
        omega)
  dsimp only at hc2
  rw [h2] at hc2
  have hT2 : (toast._trickle_up none depth 0 (some i2) ⟨1, 1, 0⟩
      (alSet [] (⟨0, 0, 0⟩ : Pos) (alSet [] ((0 : Int), (0 : Int)) (some i1)))).2.1 =
      alSet (alSet [] (⟨0, 0, 0⟩ : Pos) (alSet [] ((0 : Int), (0 : Int)) (some i1)))
        (⟨0, 0, 0⟩ : Pos)
        (alSet (alSet [] ((0 : Int), (0 : Int)) (some i1)) ((1 : Int), (0 : Int))
          (some i2)) := by
    have h := trickle_register none depth 0 (some i2) ⟨1, 1, 0⟩ ⟨0, 0, 0⟩ 1 0
      (alSet [] ((0 : Int), (0 : Int)) (some i1))
      (alSet [] (⟨0, 0, 0⟩ : Pos) (alSet [] ((0 : Int), (0 : Int)) (some i1)))
      (by decide) (by decide) (by decide) rfl (Nat.lt_of_sub_eq_succ rfl)
    rw [h]
  have e2s : (toast.runTiles resolve none depth 0 false
      (toast.pcAux mid false (fun _ => true) ((max depth 1 - 1).toNat + 1)
        ⟨⟨1, 1, 0⟩, l2, false⟩)
      (alSet [] (⟨0, 0, 0⟩ : Pos) (alSet [] ((0 : Int), (0 : Int)) (some i1)))).2.1 =
      alSet (alSet [] (⟨0, 0, 0⟩ : Pos) (alSet [] ((0 : Int), (0 : Int)) (some i1)))
        (⟨0, 0, 0⟩ : Pos)
        (alSet (alSet [] ((0 : Int), (0 : Int)) (some i1)) ((1 : Int), (0 : Int))
          (some i2)) := by
    rw [hc2]
    exact hT2
  rw [e2s]
  have hc3 := run_nomerge_chunk mid resolve depth 0 ((max depth 1 - 1).toNat)
    (⟨⟨1, 1, 1⟩, l3, true⟩ : Tile C)
    (alSet (alSet [] (⟨0, 0, 0⟩ : Pos) (alSet [] ((0 : Int), (0 : Int)) (some i1)))
      (⟨0, 0, 0⟩ : Pos)
      (alSet (alSet [] ((0 : Int), (0 : Int)) (some i1)) ((1 : Int), (0 : Int)) (some i2)))
    (le_refl 1)
    (by have hn : toast.nparent (alSet (alSet [] (⟨0, 0, 0⟩ : Pos)
          (alSet [] ((0 : Int), (0 : Int)) (some i1))) (⟨0, 0, 0⟩ : Pos)
          (alSet (alSet [] ((0 : Int), (0 : Int)) (some i1)) ((1 : Int), (0 : Int))
            (some i2))) = 2 := rfl
        omega)
  dsimp only at hc3
  rw [h3] at hc3
  have hT3 : (toast._trickle_up none depth 0 (some i3) ⟨1, 1, 1⟩
      (alSet (alSet [] (⟨0, 0, 0⟩ : Pos) (alSet [] ((0 : Int), (0 : Int)) (some i1)))
        (⟨0, 0, 0⟩ : Pos)
        (alSet (alSet [] ((0 : Int), (0 : Int)) (some i1)) ((1 : Int), (0 : Int))
          (some i2)))).2.1 =
      alSet (alSet (alSet [] (⟨0, 0, 0⟩ : Pos) (alSet [] ((0 : Int), (0 : Int)) (some i1)))
          (⟨0, 0, 0⟩ : Pos)
          (alSet (alSet [] ((0 : Int), (0 : Int)) (some i1)) ((1 : Int), (0 : Int))
            (some i2)))
        (⟨0, 0, 0⟩ : Pos)
        (alSet (alSet (alSet [] ((0 : Int), (0 : Int)) (some i1)) ((1 : Int), (0 : Int))
          (some i2)) ((1 : Int), (1 : Int)) (some i3)) := by
    have h := trickle_register none depth 0 (some i3) ⟨1, 1, 1⟩ ⟨0, 0, 0⟩ 1 1
      (alSet (alSet [] ((0 : Int), (0 : Int)) (some i1)) ((1 : Int), (0 : Int)) (some i2))
      (alSet (alSet [] (⟨0, 0, 0⟩ : Pos) (alSet [] ((0 : Int), (0 : Int)) (some i1)))
        (⟨0, 0, 0⟩ : Pos)
        (alSet (alSet [] ((0 : Int), (0 : Int)) (some i1)) ((1 : Int), (0 : Int))
          (some i2)))
      (by decide) (by decide) (by decide) rfl (Nat.lt_of_sub_eq_succ rfl)
    rw [h]
  have e3s : (toast.runTiles resolve none depth 0 false
      (toast.pcAux mid false (fun _ => true) ((max depth 1 - 1).toNat + 1)
        ⟨⟨1, 1, 1⟩, l3, true⟩)
      (alSet (alSet [] (⟨0, 0, 0⟩ : Pos) (alSet [] ((0 : Int), (0 : Int)) (some i1)))
        (⟨0, 0, 0⟩ : Pos)
        (alSet (alSet [] ((0 : Int), (0 : Int)) (some i1)) ((1 : Int), (0 : Int))
          (some i2)))).2.1 =
      alSet (alSet (alSet [] (⟨0, 0, 0⟩ : Pos) (alSet [] ((0 : Int), (0 : Int)) (some i1)))
          (⟨0, 0, 0⟩ : Pos)
          (alSet (alSet [] ((0 : Int), (0 : Int)) (some i1)) ((1 : Int), (0 : Int))
            (some i2)))
        (⟨0, 0, 0⟩ : Pos)
        (alSet (alSet (alSet [] ((0 : Int), (0 : Int)) (some i1)) ((1 : Int), (0 : Int))
          (some i2)) ((1 : Int), (1 : Int)) (some i3)) := by
    rw [hc3]
    exact hT3
  rw [e3s]
  dsimp only
  refine List.mem_append_right _ (List.mem_append_right _ (List.mem_append_right _ ?_))
  rw [pcAux_succ, if_neg (by simp), if_pos (by simp), runTiles_append]
  dsimp only
  have hdeepcond : ∀ u ∈ (toast._div4 mid (⟨⟨1, 0, 1⟩, l4, false⟩ : Tile C)).flatMap
      (toast.pcAux mid false (fun _ => true) ((max depth 1 - 1).toNat)), 2 ≤ u.pos.n := by
    intro u hu
    rw [List.mem_flatMap] at hu
    obtain ⟨c, hc, hu⟩ := hu
    have ha := div4_depth mid _ c hc
    have hb := pcAux_depth_ge mid false (fun _ => true) _ c u hu
    dsimp only at ha
    omega
  have hB3 : (toast.nparent (alSet (alSet (alSet [] (⟨0, 0, 0⟩ : Pos)
      (alSet [] ((0 : Int), (0 : Int)) (some i1))) (⟨0, 0, 0⟩ : Pos)
      (alSet (alSet [] ((0 : Int), (0 : Int)) (some i1)) ((1 : Int), (0 : Int)) (some i2)))
      (⟨0, 0, 0⟩ : Pos)
      (alSet (alSet (alSet [] ((0 : Int), (0 : Int)) (some i1)) ((1 : Int), (0 : Int))
        (some i2)) ((1 : Int), (1 : Int)) (some i3))) : Int) ≤ 4 * max depth 1 := by
    have hn : toast.nparent (alSet (alSet (alSet [] (⟨0, 0, 0⟩ : Pos)
        (alSet [] ((0 : Int), (0 : Int)) (some i1))) (⟨0, 0, 0⟩ : Pos)
        (alSet (alSet [] ((0 : Int), (0 : Int)) (some i1)) ((1 : Int), (0 : Int))
          (some i2))) (⟨0, 0, 0⟩ : Pos)
        (alSet (alSet (alSet [] ((0 : Int), (0 : Int)) (some i1)) ((1 : Int), (0 : Int))
          (some i2)) ((1 : Int), (1 : Int)) (some i3))) = 3 := rfl
    omega
  have hdeep := run_nomerge_untouched resolve depth 0
    ((toast._div4 mid (⟨⟨1, 0, 1⟩, l4, false⟩ : Tile C)).flatMap
      (toast.pcAux mid false (fun _ => true) ((max depth 1 - 1).toNat)))
    (alSet (alSet (alSet [] (⟨0, 0, 0⟩ : Pos) (alSet [] ((0 : Int), (0 : Int)) (some i1)))
        (⟨0, 0, 0⟩ : Pos)
        (alSet (alSet [] ((0 : Int), (0 : Int)) (some i1)) ((1 : Int), (0 : Int))
          (some i2)))
      (⟨0, 0, 0⟩ : Pos)
      (alSet (alSet (alSet [] ((0 : Int), (0 : Int)) (some i1)) ((1 : Int), (0 : Int))
        (some i2)) ((1 : Int), (1 : Int)) (some i3)))
    hdeepcond hB3
  have hds : (toast.runTiles resolve none depth 0 false
      ((toast._div4 mid (⟨⟨1, 0, 1⟩, l4, false⟩ : Tile C)).flatMap
        (toast.pcAux mid false (fun _ => true) ((max depth 1 - 1).toNat)))
      (alSet (alSet (alSet [] (⟨0, 0, 0⟩ : Pos) (alSet [] ((0 : Int), (0 : Int)) (some i1)))
          (⟨0, 0, 0⟩ : Pos)
          (alSet (alSet [] ((0 : Int), (0 : Int)) (some i1)) ((1 : Int), (0 : Int))
            (some i2)))
        (⟨0, 0, 0⟩ : Pos)
        (alSet (alSet (alSet [] ((0 : Int), (0 : Int)) (some i1)) ((1 : Int), (0 : Int))
          (some i2)) ((1 : Int), (1 : Int)) (some i3)))).2.1 =
      alSet (alSet (alSet [] (⟨0, 0, 0⟩ : Pos) (alSet [] ((0 : Int), (0 : Int)) (some i1)))
          (⟨0, 0, 0⟩ : Pos)
          (alSet (alSet [] ((0 : Int), (0 : Int)) (some i1)) ((1 : Int), (0 : Int))
            (some i2)))
        (⟨0, 0, 0⟩ : Pos)
        (alSet (alSet (alSet [] ((0 : Int), (0 : Int)) (some i1)) ((1 : Int), (0 : Int))
          (some i2)) ((1 : Int), (1 : Int)) (some i3)) := by
    rw [hdeep]
  rw [hds]
  refine List.mem_append_right _ ?_
  rw [runTiles_cons, if_neg (by simp), if_pos (by simp)]
  dsimp only
  rw [h4]
  have hcompl := trickle_eq_complete none depth 0 (some i4) ⟨1, 0, 1⟩
    (alSet (alSet (alSet [] (⟨0, 0, 0⟩ : Pos) (alSet [] ((0 : Int), (0 : Int)) (some i1)))
        (⟨0, 0, 0⟩ : Pos)
        (alSet (alSet [] ((0 : Int), (0 : Int)) (some i1)) ((1 : Int), (0 : Int))
          (some i2)))
      (⟨0, 0, 0⟩ : Pos)
      (alSet (alSet (alSet [] ((0 : Int), (0 : Int)) (some i1)) ((1 : Int), (0 : Int))
        (some i2)) ((1 : Int), (1 : Int)) (some i3)))
    (some i1) (some i2) (some i4) (some i3) (by decide) (by decide)
    (fun h => Nat.lt_irrefl 4 h) rfl rfl rfl rfl
  rw [hcompl]
  dsimp only
  rw [show toast._parent (⟨1, 0, 1⟩ : Pos) = ((⟨0, 0, 0⟩ : Pos), 0, 1) from by decide]
  dsimp only
  rw [trickle_eq_top none depth 0 _ ⟨0, 0, 0⟩ _ rfl]
  dsimp only
  rw [if_pos hd]
  refine List.mem_append_left _ ?_
  refine List.mem_filter.mpr ⟨List.mem_append_right _ ?_, rfl⟩
  exact List.mem_singleton.mpr rfl

theorem nomerge_base_aggregation_witness :
    ((fun t : Tile Unit =>
        if t.pos = ⟨1, 0, 0⟩ then some [[1]]
        else if t.pos = ⟨1, 1, 0⟩ then some [[2]]
        else if t.pos = ⟨1, 1, 1⟩ then some [[3]]
        else if t.pos = ⟨1, 0, 1⟩ then some [[4]]
        else none) (⟨⟨1, 0, 0⟩, ((), (), (), ()), true⟩ : Tile Unit) =
          some [[(1 : ℚ)]] ∧
      (0 : Int) ≤ 1) ∧
    (toast.mkPath 0 0 0,
      some (toast._default_merge
        (toast.np_vstack (toast.np_hstack [[(1 : ℚ)]] [[2]])
          (toast.np_hstack [[4]] [[3]])))) ∈
      (toast.iter_tiles
        (fun t : Tile Unit =>
          if t.pos = ⟨1, 0, 0⟩ then some [[1]]
          else if t.pos = ⟨1, 1, 0⟩ then some [[2]]
          else if t.pos = ⟨1, 1, 1⟩ then some [[3]]
          else if t.pos = ⟨1, 0, 1⟩ then some [[4]]
          else none)
        1 toast.MergePolicy.fls false (fun _ => true) 0 (fun _ _ => ())
        ((), (), (), ()) ((), (), (), ()) ((), (), (), ()) ((), (), (), ())).1 :=
  ⟨⟨rfl, by norm_num⟩,
    nomerge_base_aggregation (fun _ _ => ())
      (fun t : Tile Unit =>
        if t.pos = ⟨1, 0, 0⟩ then some [[1]]
        else if t.pos = ⟨1, 1, 0⟩ then some [[2]]
        else if t.pos = ⟨1, 1, 1⟩ then some [[3]]
        else if t.pos = ⟨1, 0, 1⟩ then some [[4]]
        else none)
      1 ((), (), (), ()) ((), (), (), ()) ((), (), (), ()) ((), (), (), ())
      [[1]] [[2]] [[3]] [[4]] rfl rfl rfl rfl (by norm_num)⟩

/-- C9: with `base_level_only` unset, every `(path, image)` pair yielded
by `iter_tiles` carries a present (non-sentinel) image: the loop filters
out every trickle-up emission whose image is `None` before yielding. -/
theorem merge_emissions_not_none {C : Type} (resolve : Tile C → Option Img)
    (depth : Int) (mp : toast.MergePolicy) (tf : Tile C → Bool) (top : Int)
    (mid : C → C → C) (l1 l2 l3 l4 : C × C × C × C) (pr : String × Option Img)
    (hpr : pr ∈ (toast.iter_tiles resolve depth mp false tf top mid l1 l2 l3 l4).1) :
    pr.2.isSome = true := by
  have key : ∀ (ts : List (Tile C)) (P : ParentsMap),
      pr ∈ (toast.runTiles resolve (toast.mergeOf mp) depth top false ts P).1 →
        pr.2.isSome = true := by
    intro ts
    induction ts with
    | nil =>
      intro P h
      rw [runTiles_nil] at h
      simp at h
    | cons t rest ih =>
      intro P h
      rw [runTiles_cons] at h
      rw [if_neg (by simp), if_pos (by simp)] at h
      simp only [List.mem_append] at h
      rcases h with h | h
      · exact (List.mem_filter.mp h).2
      · exact ih _ h
  exact key _ _ hpr

/-- Witness for C9: a concrete depth-1 run whose first emission is the
base tile at `(1, 0, 0)`. -/
theorem merge_emissions_not_none_witness :
    (("1/0/0_0.png", some [[(1 : ℚ)]]) ∈ (toast.iter_tiles
        (fun (_ : Tile Unit) => some [[(1 : ℚ)]]) 1 toast.MergePolicy.tru false
        (fun _ => true) 0 (fun _ _ => ()) ((), (), (), ()) ((), (), (), ()) ((), (), (), ())
        ((), (), (), ())).1) ∧
      (("1/0/0_0.png", some [[(1 : ℚ)]]) : String × Option Img).2.isSome = true :=
  ⟨by decide, merge_emissions_not_none (fun _ => some [[(1 : ℚ)]]) 1 toast.MergePolicy.tru
    (fun _ => true) 0 (fun _ _ => ()) ((), (), (), ()) ((), (), (), ()) ((), (), (), ())
    ((), (), (), ()) ("1/0/0_0.png", some [[(1 : ℚ)]]) (by decide)⟩

/-- C7 counterexample: with `base_level_only` set, a tile whose
resolved image is the sentinel is skipped (`continue`), so no pair for
it is emitted — its path does not occur in the output at all. -/
theorem base_level_only_skips_sentinel :
    ¬ ("1/0/0_0.png" ∈ ((toast.iter_tiles
        (fun (t : Tile Unit) => if t.pos = ⟨1, 0, 0⟩ then none else some [[(1 : ℚ)]]) 1
        toast.MergePolicy.tru true (fun _ => true) 0 (fun _ _ => ()) ((), (), (), ())
        ((), (), (), ()) ((), (), (), ()) ((), (), (), ())).1.map Prod.fst)) := by
  decide

/-- C7 as amended: with `base_level_only` set, `iter_tiles` emits
`(deterministic_path(pos), image)` directly for every traversal tile
whose resolved image is present, performs no aggregation (the
accumulator comes back empty and no trickle-up assertion runs), and
skips tiles whose resolved image is the sentinel. -/
theorem base_level_only_direct_emit {C : Type} (resolve : Tile C → Option Img)
    (depth : Int) (mp : toast.MergePolicy) (tf : Tile C → Bool) (top : Int)
    (mid : C → C → C) (l1 l2 l3 l4 : C × C × C × C) :
    toast.iter_tiles resolve depth mp true tf top mid l1 l2 l3 l4 =
      ((toast.iter_corners mid l1 l2 l3 l4 (max depth 1) (toast.mergeOf mp).isSome
          tf).filterMap
        (fun t => (resolve t).map
          (fun im => (toast.mkPath t.pos.n t.pos.x t.pos.y, some im))), [], true) := by
  have key : ∀ (ts : List (Tile C)) (P : ParentsMap),
      toast.runTiles resolve (toast.mergeOf mp) depth top true ts P =
        (ts.filterMap (fun t => (resolve t).map
          (fun im => (toast.mkPath t.pos.n t.pos.x t.pos.y, some im))), P, true) := by
    intro ts
    induction ts with
    | nil => intro P; rfl
    | cons t rest ih =>
      intro P
      rw [runTiles_cons]
      cases hres : resolve t with
      | none =>
        rw [if_pos ⟨rfl, rfl⟩, ih P]
        simp [hres]
      | some im =>
        rw [if_neg (by simp [hres]), if_neg (by simp), ih P]
        simp [hres]
  exact key _ []

/-- C8: both `depth2tiles` functions satisfy the closed form
`Σ_{i=0}^{d} 4^i = (4^(d+1) − 1) / 3` in exact integer arithmetic, with
the instances `1, 5, 21` at depths `0, 1, 2`. -/
theorem depth2tiles_closed_form :
    ∀ d : Nat,
      toast.depth2tiles d = ∑ i in Finset.range (d + 1), 4 ^ i ∧
      pyramid.depth2tiles d = ∑ i in Finset.range (d + 1), 4 ^ i ∧
      3 * (∑ i in Finset.range (d + 1), 4 ^ i) = 4 ^ (d + 1) - 1 ∧
      toast.depth2tiles 0 = 1 ∧ toast.depth2tiles 1 = 5 ∧ toast.depth2tiles 2 = 21 ∧
      pyramid.depth2tiles 0 = 1 ∧ pyramid.depth2tiles 1 = 5 ∧ pyramid.depth2tiles 2 = 21 := by
  have h3 : ∀ d : Nat, 3 * (∑ i in Finset.range (d + 1), 4 ^ i) = 4 ^ (d + 1) - 1 := by
    intro d
    induction d with
    | zero => simp
    | succ d ih =>
      rw [Finset.sum_range_succ, Nat.mul_add, ih, pow_succ (4 : Nat) (d + 1)]
      have hpos : 1 ≤ (4 : Nat) ^ (d + 1) := Nat.one_le_pow _ _ (by norm_num)
      omega
  have hval : ∀ d : Nat, toast.depth2tiles d = ∑ i in Finset.range (d + 1), 4 ^ i := by
    intro d
    show (4 ^ (d + 1) - 1) / 3 = _
    rw [← h3 d, Nat.mul_div_cancel_left _ (by norm_num)]
  intro d
  refine ⟨hval d, hval d, h3 d, ?_, ?_, ?_, ?_, ?_, ?_⟩ <;> decide

end Toasty
